import Mathlib

/-!
Verification development for the crawl-data stock database module
(`src/crawler/database.py`).  The SQLite tables are modelled as Lean lists
and finite maps, pandas frames as lists of records, and the pandas
operations used by the module (exact-key left merge, group-wise forward
fill, stable sort, rolling windows, average-rank percentiles) as
executable Lean functions.  Machine floats are modelled as exact
rationals; rolling volatility is represented by its square so that the
model stays inside `ℚ` (the annualisation factor √252 squares to 252,
and squaring is injective on the nonnegative reals, so nullness and
value claims transfer faithfully).
-/

/-- Calendar date, as produced by `pd.to_datetime` for the `date` column:
year, month, day fields. -/
structure Date where
  year : ℕ
  month : ℕ
  day : ℕ
deriving DecidableEq, Repr

/-- Chronological order on dates (lexicographic on year, month, day),
the order `sort_values('date')` uses. -/
def Date.le (a b : Date) : Prop :=
  a.year < b.year ∨
    (a.year = b.year ∧ (a.month < b.month ∨ (a.month = b.month ∧ a.day ≤ b.day)))

instance (a b : Date) : Decidable (Date.le a b) :=
  inferInstanceAs (Decidable (a.year < b.year ∨
    (a.year = b.year ∧ (a.month < b.month ∨ (a.month = b.month ∧ a.day ≤ b.day)))))

/-- Calendar quarter of a date, as computed by `prices['date'].dt.quarter`
(for months 1..12 this is `ceil(month/3) = (month-1)//3 + 1 = (month+2)//3`). -/
def Date.quarter (d : Date) : ℕ := (d.month + 2) / 3

/-- Codepoint key of a symbol string; pandas compares ticker strings
lexicographically by codepoint when sorting by the `symbol` column. -/
def symKey (s : String) : List ℕ := s.data.map Char.toNat

/-- Lexicographic strict order on codepoint keys. -/
def keyLtb : List ℕ → List ℕ → Bool
  | [], [] => false
  | [], _ :: _ => true
  | _ :: _, [] => false
  | a :: as, b :: bs => if a < b then true else if b < a then false else keyLtb as bs

/-- Row of the price panel returned by `get_price_panel`
(`SELECT symbol, date, close ... ORDER BY date, symbol`); a single
representative price column is carried. -/
structure PriceRow where
  symbol : String
  date : Date
  close : Option ℚ
deriving DecidableEq, Repr

/-- Row of the `fundamentals_quarterly` table as returned by
`get_fundamentals`; `v` is a single representative fundamental column
(each requested fundamental column is merged and forward-filled
independently by the code, with identical logic). -/
structure FundRow where
  symbol : String
  year : ℕ
  quarter : ℕ
  v : Option ℚ
deriving DecidableEq, Repr

/-- Row of the merged frame built inside `get_merged_data`. -/
structure MergedRow where
  symbol : String
  date : Date
  close : Option ℚ
  fund : Option ℚ
deriving DecidableEq, Repr

/-- Lookup of the fundamental row with key `(symbol, year, quarter)`; the
table's PRIMARY KEY makes the key unique, so the first match is the match.
This models the exact-key `prices.merge(funds, on=['symbol','year','quarter'],
how='left')`. -/
def fundLookup (funds : List FundRow) (s : String) (y q : ℕ) : Option FundRow :=
  funds.find? (fun f => decide (f.symbol = s) && decide (f.year = y) && decide (f.quarter = q))

/-- One price row after the left merge: the fundamental cell is the matched
row's value (missing match and SQL NULL both become NaN, i.e. `none`). -/
def mergeRow (funds : List FundRow) (p : PriceRow) : MergedRow :=
  { symbol := p.symbol, date := p.date, close := p.close,
    fund := (fundLookup funds p.symbol p.date.year p.date.quarter).bind (fun f => f.v) }

/-- Order used by `merged.sort_values(['symbol', 'date'])`: by symbol, then
by date.  Stated on `(symbol, date)` pairs so it factors through row keys. -/
def keyLe (a b : String × Date) : Prop :=
  keyLtb (symKey a.1) (symKey b.1) = true ∨ (symKey a.1 = symKey b.1 ∧ Date.le a.2 b.2)

instance (a b : String × Date) : Decidable (keyLe a b) :=
  inferInstanceAs (Decidable (_ ∨ _))

/-- Row order for `sort_values(['symbol', 'date'])`. -/
def rowLe (a b : MergedRow) : Prop := keyLe (a.symbol, a.date) (b.symbol, b.date)

instance (a b : MergedRow) : Decidable (rowLe a b) :=
  inferInstanceAs (Decidable (keyLe (a.symbol, a.date) (b.symbol, b.date)))

instance : DecidableRel rowLe := fun a b => inferInstanceAs (Decidable (rowLe a b))

/-- Order on `(year, quarter)` join keys: the key of `f` is no later than
the key of the price row's quarter. -/
def qKeyLe (y₁ q₁ y₂ q₂ : ℕ) : Prop := y₁ < y₂ ∨ (y₁ = y₂ ∧ q₁ ≤ q₂)

/-- State update of the per-symbol forward-fill
(`merged.groupby('symbol')[col].ffill()`): after passing row `p`, the last
known value for `p.symbol` is `p`'s cell if non-null, else unchanged. -/
def stepState (st : String → Option ℚ) (p : MergedRow) : String → Option ℚ :=
  fun s => if s = p.symbol then (match p.fund with | some v => some v | none => st p.symbol) else st s

/-- Forward-fill state after folding a list of rows. -/
def stateAfter (st : String → Option ℚ) (l : List MergedRow) : String → Option ℚ :=
  l.foldl stepState st

/-- Group-wise forward fill of the fundamental column
(`merged.groupby('symbol')[col].ffill()` applied in current row order):
each null cell receives the last non-null cell of the same symbol above it. -/
def ffillGroup (st : String → Option ℚ) : List MergedRow → List MergedRow
  | [] => []
  | r :: rs => { r with fund := stepState st r r.symbol } :: ffillGroup (stepState st r) rs

/-- Model of `get_merged_data`: if the fundamentals frame is empty the price
panel is returned unchanged (in its `(date, symbol)` order, with no
fundamental column — modelled as an all-null column); otherwise the panel is
left-merged on `(symbol, year, quarter)`, sorted by `['symbol', 'date']`, and
forward-filled per symbol. -/
def get_merged_data (prices : List PriceRow) (funds : List FundRow) : List MergedRow :=
  if funds.isEmpty then
    prices.map (fun p => { symbol := p.symbol, date := p.date, close := p.close, fund := none })
  else
    ffillGroup (fun _ => none) (List.insertionSort rowLe (prices.map (mergeRow funds)))

/-! ### Importer model (`import_daily_prices`) -/

/-- Digit test on characters, as in numeric string parsing. -/
def isDigitC (c : Char) : Bool := decide (48 ≤ c.toNat) && decide (c.toNat ≤ 57)

/-- Numeric value of a digit string. -/
def digitsVal (l : List Char) : ℕ := l.foldl (fun a c => 10 * a + (c.toNat - 48)) 0

/-- Split a character list on `-` separators. -/
def splitDash : List Char → List (List Char)
  | [] => [[]]
  | c :: rest =>
    let r := splitDash rest
    if c = '-' then [] :: r
    else
      match r with
      | [] => [[c]]
      | g :: gs => (c :: g) :: gs

/-- Date parsing of the importer (`pd.to_datetime` on the `date` column):
an ISO `YYYY-MM-DD` string yields a date; any string not of that shape is
unparseable and makes `pd.to_datetime` raise. -/
def parseDateChars (l : List Char) : Option Date :=
  match splitDash l with
  | [y, m, d] =>
    if !y.isEmpty && !m.isEmpty && !d.isEmpty && y.all isDigitC && m.all isDigitC && d.all isDigitC then
      let mv := digitsVal m
      let dv := digitsVal d
      if decide (1 ≤ mv) && decide (mv ≤ 12) && decide (1 ≤ dv) && decide (dv ≤ 31) then
        some ⟨digitsVal y, mv, dv⟩
      else none
    else none
  | _ => none

/-- String-level entry point for date parsing. -/
def parseDate (s : String) : Option Date := parseDateChars s.data

/-- Character class of the regex group `[-\d.]+`. -/
def isNumC (c : Char) : Bool := isDigitC c || decide (c = '-') || decide (c = '.')

/-- Attempt the regex tail `([-\d.]+)\s*%\)` at a position just after `(`:
a maximal nonempty run of `[-\d.]` characters, optional spaces, then `%)`.
(Backtracking cannot help here since `[-\d.]`, `\s` and `%` are disjoint,
so maximal munch is exact.) -/
def matchPct (l : List Char) : Option (List Char) :=
  let num := l.takeWhile isNumC
  if num.isEmpty then none
  else
    match (l.dropWhile isNumC).dropWhile (fun c => decide (c = ' ')) with
    | '%' :: ')' :: _ => some num
    | _ => none

/-- First match of the regex `\(([-\d.]+)\s*%\)` used by
`df['change'].str.extract(...)`: scan for a `(` where the tail pattern
completes, returning the captured group. -/
def findPct : List Char → Option (List Char)
  | [] => none
  | c :: rest =>
    if c = '(' then
      match matchPct rest with
      | some g => some g
      | none => findPct rest
    else findPct rest

/-- Python `float()` on a `[-\d.]+` group: optional leading minus, digits
with at most one decimal point, at least one digit. -/
def parseUQ (l : List Char) : Option ℚ :=
  let ip := l.takeWhile isDigitC
  match l.dropWhile isDigitC with
  | [] => if ip.isEmpty then none else some ((digitsVal ip : ℚ))
  | '.' :: fp =>
    if fp.all isDigitC && !(ip.isEmpty && fp.isEmpty) then
      some ((digitsVal ip : ℚ) + (digitsVal fp : ℚ) / ((10 : ℚ) ^ fp.length))
    else none
  | _ => none

/-- Signed variant of `parseUQ`. -/
def parseSQ : List Char → Option ℚ
  | '-' :: rest => (parseUQ rest).map (fun q => -q)
  | l => parseUQ l

/-- Processing of one `change` cell: no regex match gives NaN (a null
cell, the row continues); a matched group that `float()` cannot convert
raises. -/
def changePct (s : String) : Except Unit (Option ℚ) :=
  match findPct s.data with
  | none => Except.ok none
  | some grp =>
    match parseSQ grp with
    | some q => Except.ok (some q)
    | none => Except.error ()

/-- Raw CSV row handed to `import_daily_prices` (source-side field names);
numeric cells are already numbers or missing, `change` is the composite
"delta(pct%)" text column. -/
structure RawRow where
  dateStr : String
  close : Option ℚ
  volume : Option ℚ
  change : Option String
deriving DecidableEq, Repr

/-- Canonical row of the `daily_prices` table (representative columns). -/
structure DailyRow where
  symbol : String
  date : Date
  close : Option ℚ
  volume : Option ℚ
  change_pct : Option ℚ
deriving DecidableEq, Repr

/-- Primary key of `daily_prices`. -/
def DailyRow.key (r : DailyRow) : String × Date := (r.symbol, r.date)

/-- The store: the `symbols` master list and the `daily_prices` table. -/
structure Store where
  symbols : List String
  prices : List DailyRow
deriving DecidableEq, Repr

/-- Model of `INSERT OR IGNORE INTO symbols` for one symbol. -/
def ensureSymbol (l : List String) (s : String) : List String :=
  if l.contains s then l else l ++ [s]

/-- Model of a single `INSERT OR REPLACE INTO daily_prices` row write:
replace the row with the same `(symbol, date)` key in place, else append. -/
def upsertOne (tbl : List DailyRow) (r : DailyRow) : List DailyRow :=
  if tbl.any (fun x => decide (x.key = r.key)) then
    tbl.map (fun x => if x.key = r.key then r else x)
  else tbl ++ [r]

/-- `executemany` of row upserts. -/
def upsertAll (tbl : List DailyRow) (rows : List DailyRow) : List DailyRow :=
  rows.foldl upsertOne tbl

/-- Per-row processing of `import_daily_prices`: `pd.to_datetime` raises on
an unparseable date (aborting the whole batch); the `change` column is
reduced to `change_pct` via the percentage regex, `float()` raising on a
matched but unconvertible group.  No row is ever skipped. -/
def processRowE (symbol : String) (r : RawRow) : Except String DailyRow :=
  match parseDate r.dateStr with
  | none => Except.error "time data does not match any recognised date format"
  | some d =>
    match r.change with
    | none => Except.ok ⟨symbol, d, r.close, r.volume, none⟩
    | some s =>
      match changePct s with
      | Except.error _ => Except.error "could not convert string to float"
      | Except.ok c => Except.ok ⟨symbol, d, r.close, r.volume, c⟩

/-- Model of `import_daily_prices`: ensure the symbol exists, process every
row (any per-row parse failure of the date or change column raises out of
the function, nothing is written), upsert all rows by primary key, and
return the new store with the single count `len(rows)`. -/
def import_daily_prices (df : List RawRow) (symbol : String) (st : Store) :
    Except String (Store × ℕ) :=
  match df.mapM (processRowE symbol) with
  | Except.error e => Except.error e
  | Except.ok rows =>
    Except.ok ({ symbols := ensureSymbol st.symbols symbol,
                 prices := upsertAll st.prices rows }, rows.length)

/-! ### Overview importer model (`import_overview`) -/

/-- Row of the `symbols` table (all columns of the schema other than the
timestamp). -/
structure SymbolRow where
  symbol : String
  name : Option String
  exchange : Option String
  industry : Option String
  industry_en : Option String
  no_employees : Option ℚ
  foreign_percent : Option ℚ
  outstanding_shares : Option ℚ
  listed_date : Option String
deriving DecidableEq, Repr

/-- First row of an `{symbol}_overview.csv` frame. -/
structure OverviewRow where
  shortName : Option String
  exchange : Option String
  industry : Option String
  industryEn : Option String
  noEmployees : Option ℚ
  foreignPercent : Option ℚ
  outstandingShare : Option ℚ
deriving DecidableEq, Repr

/-- The full row written by `import_overview`'s
`INSERT OR REPLACE INTO symbols (symbol, name, exchange, industry,
industry_en, no_employees, foreign_percent, outstanding_shares)`:
columns absent from the column list (notably `listed_date`) take their
default, NULL. -/
def overviewToSymbolRow (sym : String) (o : OverviewRow) : SymbolRow :=
  { symbol := sym, name := o.shortName, exchange := o.exchange,
    industry := o.industry, industry_en := o.industryEn,
    no_employees := o.noEmployees, foreign_percent := o.foreignPercent,
    outstanding_shares := o.outstandingShare, listed_date := none }

/-- `INSERT OR REPLACE` on the `symbols` table: replace the row with the
same primary key in place, else append. -/
def symbolsUpsertReplace (tbl : List SymbolRow) (row : SymbolRow) : List SymbolRow :=
  if tbl.any (fun x => decide (x.symbol = row.symbol)) then
    tbl.map (fun x => if x.symbol = row.symbol then row else x)
  else tbl ++ [row]

/-- Model of `import_overview`: an empty frame writes nothing and returns 0;
otherwise the first row is written with `INSERT OR REPLACE` and 1 is
returned. -/
def import_overview (df : List OverviewRow) (sym : String) (tbl : List SymbolRow) :
    List SymbolRow × ℕ :=
  match df with
  | [] => (tbl, 0)
  | o :: _ => (symbolsUpsertReplace tbl (overviewToSymbolRow sym o), 1)

/-! ### Volatility model (`compute_volatility`) -/

/-- `prices.pct_change()` on one dense price column: entry 0 is NaN, entry
`t ≥ 1` is `p_t / p_{t-1} - 1`. -/
def pctChange (ps : List ℚ) : List (Option ℚ) :=
  (List.range ps.length).map
    (fun t => if t = 0 then none else some (ps.getD t 0 / ps.getD (t - 1) 0 - 1))

/-- The length-`≤ w` window of entries ending at index `t`. -/
def rollingWindow (rs : List (Option ℚ)) (w t : ℕ) : List (Option ℚ) :=
  (rs.take (t + 1)).drop (t + 1 - w)

/-- Sample variance (denominator `n - 1`) of a list of rationals. -/
def sampleVar (l : List ℚ) : ℚ :=
  ((l.map (fun x => (x - l.sum / (l.length : ℚ)) ^ 2)).sum) / ((l.length : ℚ) - 1)

/-- `returns.rolling(w).std()` squared, at index `t`: NaN unless the window
holds at least `w` (= `min_periods`) non-NaN observations, else the sample
variance of those observations. -/
def rollingVarAt (rs : List (Option ℚ)) (w t : ℕ) : Option ℚ :=
  if w ≤ ((rollingWindow rs w t).filterMap id).length
  then some (sampleVar ((rollingWindow rs w t).filterMap id)) else none

/-- Model of `compute_volatility` for one symbol column and one window,
represented by its square: `(returns.rolling(w).std() * sqrt 252)^2`,
i.e. `252 *` the rolling sample variance of the single-period returns.
Requires `2 ≤ w` to be a faithful float model (at `w = 1` pandas' sample
std of one observation is NaN while `ℚ` has no NaN). -/
def compute_volatility_sq (ps : List ℚ) (w : ℕ) : List (Option ℚ) :=
  (List.range ps.length).map (fun t => (rollingVarAt (pctChange ps) w t).map (fun v => 252 * v))

/-- Single-period return at index `i`, written from the spec's words
("compute single-period returns"). -/
def specReturn (ps : List ℚ) (i : ℕ) : ℚ := ps.getD i 0 / ps.getD (i - 1) 0 - 1

/-- The `w` returns ending at index `t`, from the spec's words ("the rolling
sample standard deviation over W periods"). -/
def specWindowReturns (ps : List ℚ) (w t : ℕ) : List ℚ :=
  (List.range' (t + 1 - w) w).map (specReturn ps)

/-- Spec-side annualised squared volatility at index `t`: 252 times the
sample variance (denominator `w - 1`, mean over the `w` returns) of the `w`
single-period returns ending at `t`. -/
def specVolSq (ps : List ℚ) (w t : ℕ) : ℚ :=
  252 * (((specWindowReturns ps w t).map
    (fun x => (x - (specWindowReturns ps w t).sum / (w : ℚ)) ^ 2)).sum / ((w : ℚ) - 1))

/-- Number of leading null entries of an option column. -/
def countLeadingNones : List (Option ℚ) → ℕ
  | [] => 0
  | none :: l => countLeadingNones l + 1
  | some _ :: _ => 0

/-! ### Cross-sectional ranker model (`rank_cross_sectional`) -/

/-- Input row for the ranker: a (date, symbol) keyed value column. -/
structure RRow where
  date : Date
  symbol : String
  v : Option ℚ
deriving DecidableEq, Repr

/-- Output row: the input row plus the `_rank` column. -/
structure RankedRow where
  date : Date
  symbol : String
  v : Option ℚ
  rank : Option ℚ
deriving DecidableEq, Repr

/-- The non-null values of the date group of `d`
(`groupby(level='date')` with NaN excluded from ranking). -/
def groupVals (rows : List RRow) (d : Date) : List ℚ :=
  (rows.filter (fun r => decide (r.date = d))).filterMap (fun r => r.v)

/-- Number of group values strictly below `x`. -/
def cntLt (g : List ℚ) (x : ℚ) : ℕ := g.countP (fun y => decide (y < x))

/-- Number of group values equal to `x`. -/
def cntEq (g : List ℚ) (x : ℚ) : ℕ := g.countP (fun y => decide (y = x))

/-- Average rank of `x` in `g` (pandas `rank(method='average')`): values
below contribute their count, ties occupy consecutive positions whose mean
is `cntLt + (cntEq + 1)/2`. -/
def avgRank (g : List ℚ) (x : ℚ) : ℚ := (cntLt g x : ℚ) + ((cntEq g x : ℚ) + 1) / 2

/-- pandas `rank(pct=True)`: average rank divided by the group's non-null
count. -/
def pctRank (g : List ℚ) (x : ℚ) : ℚ := avgRank g x / ((g.length : ℚ))

/-- Model of `rank_cross_sectional` for one ranked column: every row keeps
its columns and gains a rank cell, the percentile rank of its value within
its date group (null stays null). -/
def rank_cross_sectional (rows : List RRow) : List RankedRow :=
  rows.map (fun r =>
    { date := r.date, symbol := r.symbol, v := r.v,
      rank := r.v.map (fun x => pctRank (groupVals rows r.date) x) })

/-! ### Concrete instances used by witnesses and counterexamples -/

/-- Empty store. -/
def store0 : Store := { symbols := [], prices := [] }

/-- A default merged row (used only to read a computed list entry). -/
def mr0 : MergedRow := { symbol := "", date := ⟨0, 0, 0⟩, close := none, fund := none }

/-- Panel for the C3 counterexample: two symbols on two dates, in the
panel's `(date, symbol)` order. -/
def psC3 : List PriceRow :=
  [⟨"A", ⟨2024, 1, 2⟩, some 1⟩, ⟨"B", ⟨2024, 1, 2⟩, some 2⟩,
   ⟨"A", ⟨2024, 1, 3⟩, some 3⟩, ⟨"B", ⟨2024, 1, 3⟩, some 4⟩]

/-- Fundamentals for the C3 counterexample. -/
def fsC3 : List FundRow := [⟨"A", 2024, 1, some 7⟩]

/-- Panel for the C10 counterexample (same as C3's shape). -/
def psC10 : List PriceRow :=
  [⟨"A", ⟨2024, 2, 5⟩, some 1⟩, ⟨"B", ⟨2024, 2, 5⟩, some 2⟩,
   ⟨"A", ⟨2024, 2, 6⟩, some 3⟩, ⟨"B", ⟨2024, 2, 6⟩, some 4⟩]

/-- Fundamentals for the C10 counterexample: a single annual (quarter 5)
rollup row. -/
def fsC10 : List FundRow := [⟨"A", 2024, 5, some 9⟩]

/-- Panel for the C1/C2 witnesses: one symbol with a Q1 date and a Q2 date. -/
def psC2 : List PriceRow := [⟨"A", ⟨2024, 2, 1⟩, some 1⟩, ⟨"A", ⟨2024, 5, 1⟩, some 2⟩]

/-- Fundamentals for the C1/C2 witnesses: Q1 and Q3 present, Q2 absent. -/
def fsC2 : List FundRow := [⟨"A", 2024, 1, some 5⟩, ⟨"A", 2024, 3, some 7⟩]

/-- Ten-row batch of which exactly two rows lack a parseable date. -/
def batchC4 : List RawRow :=
  [⟨"2024-01-02", some 1, none, none⟩, ⟨"2024-01-03", some 2, none, none⟩,
   ⟨"2024-01-04", some 3, none, none⟩, ⟨"2024-01-05", some 4, none, none⟩,
   ⟨"not a date", some 5, none, none⟩, ⟨"2024-01-08", some 6, none, none⟩,
   ⟨"2024-01-09", some 7, none, none⟩, ⟨"??", some 8, none, none⟩,
   ⟨"2024-01-10", some 9, none, none⟩, ⟨"2024-01-11", some 10, none, none⟩]

/-- A one-row batch with a parseable date. -/
def batchOk1 : List RawRow := [⟨"2024-01-02", some 1, none, none⟩]

/-- A one-row batch whose only row has an unparseable date. -/
def batchBad1 : List RawRow := [⟨"zz", some 1, none, none⟩]

/-- A raw row with a well-formed date and a change cell that matches no
percentage pattern. -/
def rawC5 : RawRow := ⟨"2024-01-02", some 1, some 2, some "abc"⟩

/-- Batch for the C9 witness. -/
def batchC9 : List RawRow :=
  [⟨"2024-01-02", some 10, some 100, none⟩, ⟨"2024-01-03", some 11, none, none⟩]

/-- Store produced by importing `batchC9` into the empty store. -/
def stC9 : Store :=
  match import_daily_prices batchC9 "AAA" store0 with
  | Except.ok (s, _) => s
  | Except.error _ => store0

/-- Existing symbols row for the C6 counterexample, with a listing date. -/
def symC6 : SymbolRow :=
  { symbol := "AAA", name := some "Old Name", exchange := some "HOSE",
    industry := none, industry_en := none, no_employees := none,
    foreign_percent := none, outstanding_shares := none,
    listed_date := some "2010-01-05" }

/-- Overview row for the C6 counterexample. -/
def ovC6 : OverviewRow :=
  { shortName := some "New Name", exchange := some "HOSE", industry := some "Banks",
    industryEn := some "Banks", noEmployees := some 100, foreignPercent := some 1,
    outstandingShare := some 1000 }

/-- Prices for the C7 counterexample and witness. -/
def psC7 : List ℚ := [1, 2, 4, 8]

/-- Rows for the C8 witness: one date group with two distinct values and a
null. -/
def rowsC8 : List RRow :=
  [⟨⟨2024, 1, 2⟩, "A", some 1⟩, ⟨⟨2024, 1, 2⟩, "B", some 2⟩, ⟨⟨2024, 1, 2⟩, "C", none⟩]

/-! ### Helper lemmas: symbols-table replace -/

theorem find?_map_replace (row : SymbolRow) :
    ∀ tbl : List SymbolRow,
      (tbl.map (fun x => if x.symbol = row.symbol then row else x)).find?
          (fun r => decide (r.symbol = row.symbol)) =
        if tbl.any (fun x => decide (x.symbol = row.symbol)) then some row else none := by
  intro tbl
  induction tbl with
  | nil => rfl
  | cons t ts ih =>
    by_cases ht : t.symbol = row.symbol
    · simp [List.find?, ht]
    · rw [List.map_cons, if_neg ht, List.find?_cons_of_neg _ (by simpa using ht), ih,
        List.any_cons]
      simp [ht]

theorem find?_symbolsUpsertReplace (tbl : List SymbolRow) (row : SymbolRow) :
    (symbolsUpsertReplace tbl row).find? (fun r => decide (r.symbol = row.symbol)) = some row := by
  unfold symbolsUpsertReplace
  split
  · rename_i h
    rw [find?_map_replace row tbl, if_pos h]
  · rename_i h
    have hnone : tbl.find? (fun r => decide (r.symbol = row.symbol)) = none := by
      apply List.find?_eq_none.2
      intro x hx
      simp only [decide_eq_true_eq]
      intro hxe
      exact h (List.any_eq_true.2 ⟨x, hx, by simp [hxe]⟩)
    rw [List.find?_append, hnone]
    simp

/-- Claim C6 (amended): `import_overview` on a nonempty overview frame
replaces the whole symbols row via `INSERT OR REPLACE`: the row stored for
the symbol afterwards is exactly the row built from the overview's provided
fields, and every column outside the statement's column list — in
particular `listed_date` — is reset to null rather than preserved. -/
theorem import_overview_replaces_row (tbl : List SymbolRow) (o : OverviewRow)
    (rest : List OverviewRow) (sym : String) :
    ((import_overview (o :: rest) sym tbl).1.find? (fun r => decide (r.symbol = sym))) =
        some (overviewToSymbolRow sym o) ∧
      (overviewToSymbolRow sym o).listed_date = none := by
  constructor
  · have h := find?_symbolsUpsertReplace tbl (overviewToSymbolRow sym o)
    exact h
  · rfl

/-- Claim C6, counterexample: a stored symbol row with a non-null
`listed_date` loses it when an overview is imported — `listed_date` is
null afterwards, so unprovided fields are not left unchanged. -/
theorem import_overview_cex :
    symC6.listed_date = some "2010-01-05" ∧
      ((import_overview [ovC6] "AAA" [symC6]).1.find?
          (fun r => decide (r.symbol = "AAA"))).map (fun r => r.listed_date) = some none :=
  ⟨rfl, by decide⟩

/-! ### Helper lemmas: batch row processing -/

theorem mapM_processRow_ok (sym : String) :
    ∀ l : List RawRow, (∀ r ∈ l, (processRowE sym r).isOk = true) →
      ∃ pr : List DailyRow, l.mapM (processRowE sym) = Except.ok pr ∧ pr.length = l.length := by
  intro l
  induction l with
  | nil => intro _; exact ⟨[], rfl, rfl⟩
  | cons a t ih =>
    intro h
    have ha := h a (List.mem_cons_self a t)
    cases hpa : processRowE sym a with
    | error e => rw [hpa] at ha; simp [Except.isOk, Except.toBool] at ha
    | ok b =>
      obtain ⟨pr, hpr, hlen⟩ := ih (fun r hr => h r (List.mem_cons_of_mem a hr))
      refine ⟨b :: pr, ?_, by simp [hlen]⟩
      rw [List.mapM_cons, hpa, hpr]
      rfl

theorem mapM_processRow_error (sym : String) :
    ∀ l : List RawRow, (∃ r ∈ l, (processRowE sym r).isOk = false) →
      ∃ e, l.mapM (processRowE sym) = Except.error e := by
  intro l
  induction l with
  | nil => rintro ⟨r, hr, _⟩; exact absurd hr (List.not_mem_nil r)
  | cons a t ih =>
    rintro ⟨r, hr, hbad⟩
    cases hpa : processRowE sym a with
    | error e => exact ⟨e, by rw [List.mapM_cons, hpa]; rfl⟩
    | ok b =>
      rcases List.mem_cons.1 hr with rfl | hrt
      · rw [hpa] at hbad; simp [Except.isOk, Except.toBool] at hbad
      · obtain ⟨e, he⟩ := ih ⟨r, hrt, hbad⟩
        exact ⟨e, by rw [List.mapM_cons, hpa, he]; rfl⟩

/-- Claim C4 (amended): the importer returns a single count — on success it
is the total number of batch rows, all of which are written; there is no
skip count.  A batch containing any row with an unparseable date raises an
exception (the whole batch aborts) instead of skipping those rows. -/
theorem import_daily_prices_batch_contract (rows : List RawRow) (sym : String) (st : Store) :
    ((∀ r ∈ rows, (processRowE sym r).isOk = true) →
      ∃ st2, import_daily_prices rows sym st = Except.ok (st2, rows.length)) ∧
    ((∃ r ∈ rows, parseDate r.dateStr = none) →
      ∃ e, import_daily_prices rows sym st = Except.error e) := by
  constructor
  · intro h
    obtain ⟨pr, hpr, hlen⟩ := mapM_processRow_ok sym rows h
    refine ⟨Store.mk (ensureSymbol st.symbols sym) (upsertAll st.prices pr), ?_⟩
    have hrun : import_daily_prices rows sym st =
        Except.ok (Store.mk (ensureSymbol st.symbols sym) (upsertAll st.prices pr), pr.length) := by
      unfold import_daily_prices
      rw [hpr]
    rw [hrun, hlen]
  · rintro ⟨r, hr, hd⟩
    have hbad : (processRowE sym r).isOk = false := by
      unfold processRowE
      rw [hd]
      rfl
    obtain ⟨e, he⟩ := mapM_processRow_error sym rows ⟨r, hr, hbad⟩
    refine ⟨e, ?_⟩
    unfold import_daily_prices
    rw [he]

/-- Claim C4, witness: a parseable one-row batch imports with count 1, and
the ten-row batch with two unparseable dates raises. -/
theorem import_daily_prices_batch_contract_witness :
    (∃ st2, import_daily_prices batchOk1 "AAA" store0 = Except.ok (st2, batchOk1.length)) ∧
    (∃ e, import_daily_prices batchC4 "AAA" store0 = Except.error e) :=
  ⟨(import_daily_prices_batch_contract batchOk1 "AAA" store0).1 (by decide),
   (import_daily_prices_batch_contract batchC4 "AAA" store0).2
     ⟨⟨"not a date", some 5, none, none⟩, by decide, by decide⟩⟩

/-- Claim C4, counterexample: on the ten-row batch with two unparseable
dates the importer raises (no 8-written / 2-skipped outcome exists). -/
theorem import_daily_prices_batch_cex :
    (import_daily_prices batchC4 "AAA" store0).isOk = false := by decide

/-- Claim C5 (amended): a malformed numeric `change` cell (no percentage
pattern) becomes a null `change_pct` on that row only and the row
continues; a batch whose rows all process imports completely (no row is
ever skipped); but a malformed date raises an exception out of the whole
batch. -/
theorem import_daily_prices_row_validation (rows : List RawRow) (sym : String) (st : Store) :
    (∀ r : RawRow, ∀ d, parseDate r.dateStr = some d → ∀ s, r.change = some s →
        findPct s.data = none →
        processRowE sym r = Except.ok ⟨sym, d, r.close, r.volume, none⟩) ∧
    ((∀ r ∈ rows, (processRowE sym r).isOk = true) →
      ∃ st2, import_daily_prices rows sym st = Except.ok (st2, rows.length)) ∧
    ((∃ r ∈ rows, parseDate r.dateStr = none) →
      ∃ e, import_daily_prices rows sym st = Except.error e) := by
  refine ⟨?_, ?_, ?_⟩
  · intro r d hd s hs hf
    simp only [processRowE, hd, hs, changePct, hf]
  · intro h
    obtain ⟨pr, hpr, hlen⟩ := mapM_processRow_ok sym rows h
    refine ⟨Store.mk (ensureSymbol st.symbols sym) (upsertAll st.prices pr), ?_⟩
    have hrun : import_daily_prices rows sym st =
        Except.ok (Store.mk (ensureSymbol st.symbols sym) (upsertAll st.prices pr), pr.length) := by
      unfold import_daily_prices
      rw [hpr]
    rw [hrun, hlen]
  · rintro ⟨r, hr, hd⟩
    have hbad : (processRowE sym r).isOk = false := by
      unfold processRowE
      rw [hd]
      rfl
    obtain ⟨e, he⟩ := mapM_processRow_error sym rows ⟨r, hr, hbad⟩
    refine ⟨e, ?_⟩
    unfold import_daily_prices
    rw [he]

/-- Claim C5, witness: a row with a patternless `change` string keeps all
other fields and gets a null `change_pct`; a batch with an unparseable
date raises. -/
theorem import_daily_prices_row_validation_witness :
    processRowE "AAA" rawC5 = Except.ok ⟨"AAA", ⟨2024, 1, 2⟩, some 1, some 2, none⟩ ∧
    (∃ e, import_daily_prices batchBad1 "AAA" store0 = Except.error e) :=
  ⟨(import_daily_prices_row_validation batchBad1 "AAA" store0).1 rawC5 ⟨2024, 1, 2⟩
     (by decide) "abc" rfl (by decide),
   (import_daily_prices_row_validation batchBad1 "AAA" store0).2.2
     ⟨⟨"zz", some 1, none, none⟩, by decide, by decide⟩⟩

/-- Claim C5, counterexample: a single row whose date is malformed makes the
importer raise — the row is not continued with a null field, and the batch
does not survive. -/
theorem import_daily_prices_row_validation_cex :
    (import_daily_prices batchBad1 "AAA" store0).isOk = false := by decide

/-! ### Helper lemmas: keyed upserts on `daily_prices` -/

theorem upsertOne_eq_map (tbl : List DailyRow) (r : DailyRow)
    (h : (tbl.any fun x => decide (x.key = r.key)) = true) :
    upsertOne tbl r = tbl.map (fun x => if x.key = r.key then r else x) := by
  unfold upsertOne
  rw [if_pos h]

theorem upsertOne_eq_append (tbl : List DailyRow) (r : DailyRow)
    (h : ¬(tbl.any fun x => decide (x.key = r.key)) = true) :
    upsertOne tbl r = tbl ++ [r] := by
  unfold upsertOne
  rw [if_neg h]

theorem keys_upsertOne (tbl : List DailyRow) (r : DailyRow) :
    (upsertOne tbl r).map DailyRow.key =
      if tbl.any (fun x => decide (x.key = r.key)) then tbl.map DailyRow.key
      else tbl.map DailyRow.key ++ [r.key] := by
  by_cases h : (tbl.any fun x => decide (x.key = r.key)) = true
  · rw [upsertOne_eq_map tbl r h, if_pos h, List.map_map]
    apply List.map_congr_left
    intro x _
    by_cases hx : x.key = r.key
    · simp [Function.comp, hx]
    · simp [Function.comp, hx]
  · rw [upsertOne_eq_append tbl r h, if_neg h]
    simp

theorem key_mem_upsertAll_of_mem (rows : List DailyRow) :
    ∀ (tbl : List DailyRow) (k : String × Date), k ∈ tbl.map DailyRow.key →
      k ∈ (upsertAll tbl rows).map DailyRow.key := by
  induction rows with
  | nil => intro tbl k hk; exact hk
  | cons r rest ih =>
    intro tbl k hk
    show k ∈ (upsertAll (upsertOne tbl r) rest).map DailyRow.key
    apply ih
    rw [keys_upsertOne]
    split
    · exact hk
    · exact List.mem_append_left _ hk

theorem key_mem_upsertOne_self (tbl : List DailyRow) (r : DailyRow) :
    r.key ∈ (upsertOne tbl r).map DailyRow.key := by
  rw [keys_upsertOne]
  split
  · rename_i hany
    obtain ⟨x, hx, hxk⟩ := List.any_eq_true.1 hany
    simp only [decide_eq_true_eq] at hxk
    rw [← hxk]
    exact List.mem_map_of_mem _ hx
  · exact List.mem_append_right _ (List.mem_singleton_self _)

theorem any_key_eq_of_forall₂ {k : String × Date} {t₁ t₂ : List DailyRow}
    (h : List.Forall₂ (fun x y => DailyRow.key x = DailyRow.key y ∧ (x = y ∨ DailyRow.key x = k))
      t₁ t₂) (c : String × Date) :
    (t₁.any fun x => decide (x.key = c)) = (t₂.any fun x => decide (x.key = c)) := by
  induction h with
  | nil => rfl
  | cons hxy _ ih =>
    rw [List.any_cons, List.any_cons, ih, hxy.1]

theorem forall₂_map_replace_approx (r : DailyRow) :
    ∀ l : List DailyRow,
      List.Forall₂ (fun a b => DailyRow.key a = DailyRow.key b ∧ (a = b ∨ DailyRow.key a = r.key))
        (l.map (fun x => if x.key = r.key then r else x)) l := by
  intro l
  induction l with
  | nil => exact List.Forall₂.nil
  | cons x t ih =>
    refine List.Forall₂.cons ?_ ih
    dsimp only
    by_cases hx : x.key = r.key
    · rw [if_pos hx]
      exact ⟨hx.symm, Or.inr rfl⟩
    · rw [if_neg hx]
      exact ⟨rfl, Or.inl rfl⟩

theorem eq_of_forall₂_no_key {k : String × Date} :
    ∀ {t₁ t₂ : List DailyRow},
      List.Forall₂ (fun x y => DailyRow.key x = DailyRow.key y ∧ (x = y ∨ DailyRow.key x = k))
        t₁ t₂ →
      (∀ x ∈ t₁, x.key ≠ k) → t₁ = t₂ := by
  intro t₁ t₂ h
  induction h with
  | nil => intro _; rfl
  | cons hxy htail ih =>
    rename_i x y l₁ l₂
    intro hno
    have hx : x = y := by
      rcases hxy.2 with h2 | h2
      · exact h2
      · exact absurd h2 (hno x (List.mem_cons_self x l₁))
    rw [hx, ih (fun z hz => hno z (List.mem_cons_of_mem x hz))]

theorem forall₂_map_replace_pres {k : String × Date} (r : DailyRow) :
    ∀ {t₁ t₂ : List DailyRow},
      List.Forall₂ (fun x y => DailyRow.key x = DailyRow.key y ∧ (x = y ∨ DailyRow.key x = k))
        t₁ t₂ →
      List.Forall₂ (fun x y => DailyRow.key x = DailyRow.key y ∧ (x = y ∨ DailyRow.key x = k))
        (t₁.map (fun x => if x.key = r.key then r else x))
        (t₂.map (fun x => if x.key = r.key then r else x)) := by
  intro t₁ t₂ h
  induction h with
  | nil => exact List.Forall₂.nil
  | cons hxy htail ih =>
    rename_i x y l₁ l₂
    rw [List.map_cons, List.map_cons]
    refine List.Forall₂.cons ?_ ih
    dsimp only
    by_cases hx : x.key = r.key
    · rw [if_pos hx, if_pos (by rw [← hxy.1]; exact hx)]
      exact ⟨rfl, Or.inl rfl⟩
    · rw [if_neg hx, if_neg (by rw [← hxy.1]; exact hx)]
      exact hxy

theorem forall₂_append_one {k : String × Date} (r : DailyRow) :
    ∀ {t₁ t₂ : List DailyRow},
      List.Forall₂ (fun x y => DailyRow.key x = DailyRow.key y ∧ (x = y ∨ DailyRow.key x = k))
        t₁ t₂ →
      List.Forall₂ (fun x y => DailyRow.key x = DailyRow.key y ∧ (x = y ∨ DailyRow.key x = k))
        (t₁ ++ [r]) (t₂ ++ [r]) := by
  intro t₁ t₂ h
  induction h with
  | nil => exact List.Forall₂.cons ⟨rfl, Or.inl rfl⟩ List.Forall₂.nil
  | cons hxy htail ih => exact List.Forall₂.cons hxy ih

theorem forall₂_upsertOne {k : String × Date} {t₁ t₂ : List DailyRow}
    (hf : List.Forall₂ (fun x y => DailyRow.key x = DailyRow.key y ∧ (x = y ∨ DailyRow.key x = k))
      t₁ t₂) (r : DailyRow) :
    List.Forall₂ (fun x y => DailyRow.key x = DailyRow.key y ∧ (x = y ∨ DailyRow.key x = k))
      (upsertOne t₁ r) (upsertOne t₂ r) := by
  by_cases h : (t₁.any fun x => decide (x.key = r.key)) = true
  · rw [upsertOne_eq_map t₁ r h,
      upsertOne_eq_map t₂ r (by rw [← any_key_eq_of_forall₂ hf r.key]; exact h)]
    exact forall₂_map_replace_pres r hf
  · rw [upsertOne_eq_append t₁ r h,
      upsertOne_eq_append t₂ r (by rw [← any_key_eq_of_forall₂ hf r.key]; exact h)]
    exact forall₂_append_one r hf

theorem map_replace_eq_of_forall₂ {k : String × Date} (r : DailyRow) (hrk : r.key = k) :
    ∀ {t₁ t₂ : List DailyRow},
      List.Forall₂ (fun x y => DailyRow.key x = DailyRow.key y ∧ (x = y ∨ DailyRow.key x = k))
        t₁ t₂ →
      t₁.map (fun x => if x.key = r.key then r else x) =
        t₂.map (fun x => if x.key = r.key then r else x) := by
  intro t₁ t₂ h
  induction h with
  | nil => rfl
  | cons hxy htail ih =>
    rename_i x y l₁ l₂
    rw [List.map_cons, List.map_cons, ih]
    congr 1
    dsimp only
    by_cases hx : x.key = r.key
    · rw [if_pos hx, if_pos (by rw [← hxy.1]; exact hx)]
    · have hy : ¬y.key = r.key := by rw [← hxy.1]; exact hx
      rw [if_neg hx, if_neg hy]
      rcases hxy.2 with h2 | h2
      · exact h2
      · exact absurd (h2.trans hrk.symm) hx

theorem upsertAll_congr_of_key_write (k : String × Date) :
    ∀ (rows : List DailyRow) (t₁ t₂ : List DailyRow),
      List.Forall₂ (fun x y => DailyRow.key x = DailyRow.key y ∧ (x = y ∨ DailyRow.key x = k))
        t₁ t₂ →
      (∃ q ∈ rows, q.key = k) →
      upsertAll t₁ rows = upsertAll t₂ rows := by
  intro rows
  induction rows with
  | nil =>
    rintro t₁ t₂ hf ⟨q, hq, _⟩
    exact absurd hq (List.not_mem_nil q)
  | cons r rest ih =>
    rintro t₁ t₂ hf ⟨q, hq, hqk⟩
    show upsertAll (upsertOne t₁ r) rest = upsertAll (upsertOne t₂ r) rest
    by_cases hrk : r.key = k
    · have heq : upsertOne t₁ r = upsertOne t₂ r := by
        by_cases h : (t₁.any fun x => decide (x.key = r.key)) = true
        · rw [upsertOne_eq_map t₁ r h,
            upsertOne_eq_map t₂ r (by rw [← any_key_eq_of_forall₂ hf r.key]; exact h)]
          exact map_replace_eq_of_forall₂ r hrk hf
        · rw [upsertOne_eq_append t₁ r h,
            upsertOne_eq_append t₂ r (by rw [← any_key_eq_of_forall₂ hf r.key]; exact h)]
          have ht : t₁ = t₂ := by
            apply eq_of_forall₂_no_key hf
            intro x hx hxk
            exact h (List.any_eq_true.2 ⟨x, hx, by simp [hxk, hrk]⟩)
          rw [ht]
      rw [heq]
    · have hq2 : q ∈ rest := by
        rcases List.mem_cons.1 hq with rfl | h2
        · exact absurd hqk hrk
        · exact h2
      exact ih _ _ (forall₂_upsertOne hf r) ⟨q, hq2, hqk⟩

theorem all_key_rows_eq_upsertAll (r : DailyRow) :
    ∀ (rows : List DailyRow) (tbl : List DailyRow),
      (∀ q ∈ rows, q.key ≠ r.key) →
      (∀ x ∈ tbl, x.key = r.key → x = r) →
      ∀ x ∈ upsertAll tbl rows, x.key = r.key → x = r := by
  intro rows
  induction rows with
  | nil => intro tbl _ hall; exact hall
  | cons q rest ih =>
    intro tbl hk hall
    show ∀ x ∈ upsertAll (upsertOne tbl q) rest, x.key = r.key → x = r
    apply ih
    · exact fun z hz => hk z (List.mem_cons_of_mem q hz)
    · intro x hx hxk
      by_cases h : (tbl.any fun z => decide (z.key = q.key)) = true
      · rw [upsertOne_eq_map tbl q h] at hx
        obtain ⟨z, hz, hzx⟩ := List.mem_map.1 hx
        by_cases hzk : z.key = q.key
        · rw [if_pos hzk] at hzx
          rw [← hzx] at hxk
          exact absurd hxk (hk q (List.mem_cons_self q rest))
        · rw [if_neg hzk] at hzx
          rw [← hzx] at hxk ⊢
          exact hall z hz hxk
      · rw [upsertOne_eq_append tbl q h] at hx
        rcases List.mem_append.1 hx with hz | hz
        · exact hall x hz hxk
        · rw [List.mem_singleton.1 hz] at hxk
          exact absurd hxk (hk q (List.mem_cons_self q rest))

theorem upsertOne_eq_self (tbl : List DailyRow) (r : DailyRow)
    (hmem : r.key ∈ tbl.map DailyRow.key)
    (hall : ∀ x ∈ tbl, x.key = r.key → x = r) :
    upsertOne tbl r = tbl := by
  have hany : (tbl.any fun x => decide (x.key = r.key)) = true := by
    obtain ⟨x, hx, hxk⟩ := List.mem_map.1 hmem
    exact List.any_eq_true.2 ⟨x, hx, by simp [hxk]⟩
  rw [upsertOne_eq_map tbl r hany]
  conv_rhs => rw [← List.map_id tbl]
  apply List.map_congr_left
  intro x hx
  by_cases hxk : x.key = r.key
  · rw [if_pos hxk]
    exact (hall x hx hxk).symm
  · rw [if_neg hxk]
    rfl

theorem upsertAll_idem : ∀ (rows : List DailyRow) (tbl : List DailyRow),
    upsertAll (upsertAll tbl rows) rows = upsertAll tbl rows := by
  intro rows
  induction rows with
  | nil => intro tbl; rfl
  | cons r rest ih =>
    intro tbl
    show upsertAll (upsertOne (upsertAll (upsertOne tbl r) rest) r) rest =
      upsertAll (upsertOne tbl r) rest
    have hkey : r.key ∈ (upsertAll (upsertOne tbl r) rest).map DailyRow.key :=
      key_mem_upsertAll_of_mem rest _ _ (key_mem_upsertOne_self tbl r)
    by_cases hex : ∃ q ∈ rest, q.key = r.key
    · have hany : ((upsertAll (upsertOne tbl r) rest).any
          (fun x => decide (x.key = r.key))) = true := by
        obtain ⟨x, hx, hxk⟩ := List.mem_map.1 hkey
        exact List.any_eq_true.2 ⟨x, hx, by simp [hxk]⟩
      have happrox : List.Forall₂
          (fun x y => DailyRow.key x = DailyRow.key y ∧ (x = y ∨ DailyRow.key x = r.key))
          (upsertOne (upsertAll (upsertOne tbl r) rest) r)
          (upsertAll (upsertOne tbl r) rest) := by
        rw [upsertOne_eq_map _ r hany]
        exact forall₂_map_replace_approx r _
      rw [upsertAll_congr_of_key_write r.key rest _ _ happrox hex]
      exact ih (upsertOne tbl r)
    · push_neg at hex
      have hall : ∀ x ∈ upsertAll (upsertOne tbl r) rest, x.key = r.key → x = r := by
        apply all_key_rows_eq_upsertAll r rest (upsertOne tbl r) hex
        intro x hx hxk
        by_cases h : (tbl.any fun z => decide (z.key = r.key)) = true
        · rw [upsertOne_eq_map tbl r h] at hx
          obtain ⟨z, hz, hzx⟩ := List.mem_map.1 hx
          by_cases hzk : z.key = r.key
          · rw [if_pos hzk] at hzx
            exact hzx.symm
          · rw [if_neg hzk] at hzx
            rw [← hzx] at hxk
            exact absurd hxk hzk
        · rw [upsertOne_eq_append tbl r h] at hx
          rcases List.mem_append.1 hx with hz | hz
          · exact absurd (List.any_eq_true.2 ⟨x, hz, by simp [hxk]⟩) h
          · exact List.mem_singleton.1 hz
      rw [upsertOne_eq_self _ r hkey hall]
      exact ih (upsertOne tbl r)

theorem nodup_keys_upsertOne (tbl : List DailyRow) (r : DailyRow)
    (h : (tbl.map DailyRow.key).Nodup) : ((upsertOne tbl r).map DailyRow.key).Nodup := by
  rw [keys_upsertOne]
  split
  · exact h
  · rename_i hany
    rw [List.nodup_append]
    refine ⟨h, List.nodup_singleton _, ?_⟩
    intro a ha hb
    rw [List.mem_singleton.1 hb] at ha
    obtain ⟨x, hx, hxk⟩ := List.mem_map.1 ha
    exact hany (List.any_eq_true.2 ⟨x, hx, by simp [hxk]⟩)

theorem nodup_keys_upsertAll (rows : List DailyRow) :
    ∀ tbl, (tbl.map DailyRow.key).Nodup → ((upsertAll tbl rows).map DailyRow.key).Nodup := by
  induction rows with
  | nil => intro tbl h; exact h
  | cons r rest ih =>
    intro tbl h
    exact ih _ (nodup_keys_upsertOne tbl r h)

theorem contains_ensureSymbol (l : List String) (s : String) :
    (ensureSymbol l s).contains s = true := by
  unfold ensureSymbol
  split
  · rename_i h
    exact h
  · simp

theorem ensureSymbol_idem (l : List String) (s : String) :
    ensureSymbol (ensureSymbol l s) s = ensureSymbol l s := by
  conv_lhs => rw [ensureSymbol]
  rw [if_pos (contains_ensureSymbol l s)]

/-- Claim C9: importing the same daily-price batch twice leaves the store
exactly as importing it once — the same store value (hence identical row
count and identical field values) and the same returned count — and the
per-key replace semantics preserve the at-most-one-row-per-(symbol, date)
invariant. -/
theorem import_daily_prices_idem (rows : List RawRow) (sym : String) (st st2 : Store) (n : ℕ)
    (h : import_daily_prices rows sym st = Except.ok (st2, n)) :
    import_daily_prices rows sym st2 = Except.ok (st2, n) ∧
      ((st.prices.map DailyRow.key).Nodup → (st2.prices.map DailyRow.key).Nodup) := by
  unfold import_daily_prices at h ⊢
  cases hm : rows.mapM (processRowE sym) with
  | error e =>
    rw [hm] at h
    exact absurd h (by simp)
  | ok pr =>
    rw [hm] at h
    simp only [Except.ok.injEq, Prod.mk.injEq] at h
    obtain ⟨hst, hn⟩ := h
    constructor
    · rw [← hst, ← hn]
      simp only [Except.ok.injEq, Prod.mk.injEq, Store.mk.injEq]
      refine ⟨⟨ensureSymbol_idem st.symbols sym, upsertAll_idem pr st.prices⟩, ?_⟩
      trivial
    · intro hnd
      rw [← hst]
      exact nodup_keys_upsertAll pr st.prices hnd

/-- Claim C9, witness: re-importing a concrete two-row batch into the store
it produced returns the identical store and count. -/
theorem import_daily_prices_idem_witness :
    import_daily_prices batchC9 "AAA" stC9 = Except.ok (stC9, 2) ∧
      ((store0.prices.map DailyRow.key).Nodup → (stC9.prices.map DailyRow.key).Nodup) :=
  import_daily_prices_idem batchC9 "AAA" store0 stC9 2 rfl

/-! ### Helper lemmas: rolling volatility -/

theorem getD_map_range {α : Type} (f : ℕ → α) (n t : ℕ) (d : α) (ht : t < n) :
    ((List.range n).map f).getD t d = f t := by
  rw [List.getD_eq_getElem?_getD, List.getElem?_map, List.getElem?_range ht]
  rfl

theorem pctChange_eq (ps : List ℚ) :
    pctChange ps = (List.range ps.length).map
      (fun t => if t = 0 then none else some (specReturn ps t)) := rfl

theorem range_split (w t : ℕ) :
    List.range (t + 1) = List.range' 0 (t + 1 - w) ++ List.range' (t + 1 - w) w ∨ t + 1 < w := by
  by_cases h : w ≤ t + 1
  · left
    rw [List.range_eq_range']
    have hap := List.range'_append 0 (t + 1 - w) w 1
    simp only [Nat.one_mul, Nat.zero_add] at hap
    rw [hap]
    congr 1
    omega
  · right
    omega

theorem rollingWindow_high (ps : List ℚ) (w t : ℕ) (hwt : w ≤ t) (ht : t < ps.length) :
    rollingWindow (pctChange ps) w t =
      (List.range' (t + 1 - w) w).map (fun i => some (specReturn ps i)) := by
  unfold rollingWindow
  rw [pctChange_eq, ← List.map_take, List.take_range]
  have hmin : min (t + 1) ps.length = t + 1 := by omega
  rw [hmin]
  rcases range_split w t with hsp | hsp
  · rw [hsp, ← List.map_drop, List.drop_left' (by simp)]
    apply List.map_congr_left
    intro i hi
    have hmem := List.mem_range'_1.mp hi
    have hne : i ≠ 0 := by omega
    rw [if_neg hne]
  · omega

theorem filterMap_some_eq_map {α β : Type} (f : α → β) :
    ∀ l : List α, l.filterMap (fun x => some (f x)) = l.map f := by
  intro l
  induction l with
  | nil => rfl
  | cons a t ih => simp [List.filterMap_cons, ih]

theorem rollingWindow_low_len (ps : List ℚ) (w t : ℕ) (htw : t < w) (ht : t < ps.length) :
    ((rollingWindow (pctChange ps) w t).filterMap id).length = t := by
  unfold rollingWindow
  rw [pctChange_eq, ← List.map_take, List.take_range]
  have hmin : min (t + 1) ps.length = t + 1 := by omega
  have hz : t + 1 - w = 0 := by omega
  rw [hmin, hz, List.drop_zero, List.filterMap_map, List.range_succ_eq_map,
    List.filterMap_cons_none rfl, List.filterMap_map]
  have hfun : ∀ i ∈ List.range t,
      ((id ∘ fun u => if u = 0 then none else some (specReturn ps u)) ∘ Nat.succ) i =
        some (specReturn ps (i + 1)) := by
    intro i _
    simp [Function.comp]
  rw [List.filterMap_congr hfun, filterMap_some_eq_map, List.length_map, List.length_range]

theorem rollingVarAt_low (ps : List ℚ) (w t : ℕ) (htw : t < w) (ht : t < ps.length) :
    rollingVarAt (pctChange ps) w t = none := by
  unfold rollingVarAt
  rw [if_neg]
  rw [rollingWindow_low_len ps w t htw ht]
  omega

theorem rollingVarAt_high (ps : List ℚ) (w t : ℕ) (hwt : w ≤ t) (ht : t < ps.length) :
    rollingVarAt (pctChange ps) w t = some (sampleVar (specWindowReturns ps w t)) := by
  unfold rollingVarAt
  rw [rollingWindow_high ps w t hwt ht, List.filterMap_map]
  have hfun : ∀ i ∈ List.range' (t + 1 - w) w,
      (id ∘ fun i => some (specReturn ps i)) i = some (specReturn ps i) := by
    intro i _
    rfl
  rw [List.filterMap_congr hfun, filterMap_some_eq_map]
  rw [if_pos (by simp)]
  rfl

theorem sampleVar_specWindow (ps : List ℚ) (w t : ℕ) :
    252 * sampleVar (specWindowReturns ps w t) = specVolSq ps w t := by
  have hl : (specWindowReturns ps w t).length = w := by
    simp [specWindowReturns]
  unfold sampleVar specVolSq
  rw [hl]

/-- Claim C7 (amended): for a dense price column and a window `2 ≤ w`, the
rolling annualised volatility (squared model) at row `t` equals 252 times
the sample variance of the `w` single-period returns ending at `t`, and the
null rows are exactly the first `w` rows — not the first `w - 1` — because
the return at row 0 is itself null and `min_periods = w` then leaves the
std null through row `w - 1`. -/
theorem compute_volatility_window (ps : List ℚ) (w t : ℕ) (h2 : 2 ≤ w) (ht : t < ps.length) :
    (((compute_volatility_sq ps w).getD t none = none) ↔ t < w) ∧
      (w ≤ t → (compute_volatility_sq ps w).getD t none = some (specVolSq ps w t)) := by
  have hout : (compute_volatility_sq ps w).getD t none =
      (rollingVarAt (pctChange ps) w t).map (fun v => 252 * v) := by
    unfold compute_volatility_sq
    exact getD_map_range _ _ _ _ ht
  have hhigh : w ≤ t → (compute_volatility_sq ps w).getD t none =
      some (specVolSq ps w t) := by
    intro hwt
    rw [hout, rollingVarAt_high ps w t hwt ht]
    rw [Option.map_some']
    rw [sampleVar_specWindow]
  constructor
  · constructor
    · intro hnone
      by_contra hge
      push_neg at hge
      rw [hhigh hge] at hnone
      exact Option.some_ne_none _ hnone
    · intro htw
      rw [hout, rollingVarAt_low ps w t htw ht]
      rfl
  · exact hhigh

/-- Claim C7, witness: on prices `[1, 2, 4, 8]` with window 2, row 2 (and
every later row) carries the annualised sample variance of its two returns,
and rows below the window are null. -/
theorem compute_volatility_window_witness :
    (((compute_volatility_sq psC7 2).getD 2 none = none) ↔ 2 < 2) ∧
      (2 ≤ 2 → (compute_volatility_sq psC7 2).getD 2 none = some (specVolSq psC7 2 2)) :=
  compute_volatility_window psC7 2 2 (by decide) (by decide)

/-- Claim C7, counterexample: with window `W = 2` on the four-row price
column `[1, 2, 4, 8]` the number of leading null volatility rows is 2, not
`W - 1 = 1`: the claim "exactly the first W-1 rows per symbol are null"
fails on the code. -/
theorem compute_volatility_cex :
    countLeadingNones (compute_volatility_sq psC7 2) ≠ 2 - 1 := by decide

/-! ### Helper lemmas: the sort order of `sort_values(['symbol','date'])` -/

theorem keyLtb_irrefl : ∀ k : List ℕ, keyLtb k k = false := by
  intro k
  induction k with
  | nil => rfl
  | cons a as ih =>
    unfold keyLtb
    rw [if_neg (lt_irrefl a), if_neg (lt_irrefl a)]
    exact ih

theorem keyLtb_trans : ∀ a b c : List ℕ,
    keyLtb a b = true → keyLtb b c = true → keyLtb a c = true := by
  intro a
  induction a with
  | nil =>
    intro b c hab hbc
    cases b with
    | nil => exact hbc
    | cons y ys =>
      cases c with
      | nil => cases hbc
      | cons z zs => rfl
  | cons x xs ih =>
    intro b c hab hbc
    cases b with
    | nil => cases hab
    | cons y ys =>
      cases c with
      | nil => cases hbc
      | cons z zs =>
        unfold keyLtb at hab hbc ⊢
        split_ifs at hab hbc ⊢ <;>
          first
            | rfl
            | omega
            | (exact ih ys zs hab hbc)
            | simp_all

theorem keyLtb_total_eq : ∀ a b : List ℕ,
    keyLtb a b = true ∨ keyLtb b a = true ∨ a = b := by
  intro a
  induction a with
  | nil =>
    intro b
    cases b with
    | nil => right; right; rfl
    | cons y ys => left; rfl
  | cons x xs ih =>
    intro b
    cases b with
    | nil => right; left; rfl
    | cons y ys =>
      by_cases hxy : x < y
      · left
        unfold keyLtb
        rw [if_pos hxy]
      · by_cases hyx : y < x
        · right; left
          unfold keyLtb
          rw [if_pos hyx]
        · have hxe : x = y := by omega
          subst hxe
          rcases ih ys with h | h | h
          · left
            unfold keyLtb
            rw [if_neg (lt_irrefl x), if_neg (lt_irrefl x)]
            exact h
          · right; left
            unfold keyLtb
            rw [if_neg (lt_irrefl x), if_neg (lt_irrefl x)]
            exact h
          · right; right
            rw [h]

theorem date_le_refl (d : Date) : Date.le d d := Or.inr ⟨rfl, Or.inr ⟨rfl, le_refl _⟩⟩

theorem date_le_trans (a b c : Date) (h1 : Date.le a b) (h2 : Date.le b c) : Date.le a c := by
  unfold Date.le at h1 h2 ⊢
  omega

theorem date_le_total (a b : Date) : Date.le a b ∨ Date.le b a := by
  unfold Date.le
  omega

theorem rowLe_total : ∀ a b : MergedRow, rowLe a b ∨ rowLe b a := by
  intro a b
  unfold rowLe keyLe
  rcases keyLtb_total_eq (symKey a.symbol) (symKey b.symbol) with h | h | h
  · left; left; exact h
  · right; left; exact h
  · rcases date_le_total a.date b.date with hd | hd
    · left; right; exact ⟨h, hd⟩
    · right; right; exact ⟨h.symm, hd⟩

theorem rowLe_trans : ∀ a b c : MergedRow, rowLe a b → rowLe b c → rowLe a c := by
  intro a b c hab hbc
  unfold rowLe keyLe at hab hbc ⊢
  rcases hab with h1 | ⟨he1, hd1⟩
  · rcases hbc with h2 | ⟨he2, hd2⟩
    · left; exact keyLtb_trans _ _ _ h1 h2
    · left; rw [← he2]; exact h1
  · rcases hbc with h2 | ⟨he2, hd2⟩
    · left; rw [he1]; exact h2
    · right; exact ⟨he1.trans he2, date_le_trans _ _ _ hd1 hd2⟩

theorem rowLe_same_symbol_date (q r : MergedRow) (h : rowLe q r) (hs : q.symbol = r.symbol) :
    Date.le q.date r.date := by
  unfold rowLe keyLe at h
  rcases h with hlt | ⟨_, hd⟩
  · rw [hs, keyLtb_irrefl] at hlt
    cases hlt
  · exact hd

theorem quarter_eq_one (d : Date) (ha : 1 ≤ d.month) (hb : d.month ≤ 3) : d.quarter = 1 := by
  unfold Date.quarter
  omega

theorem quarter_eq_two (d : Date) (ha : 4 ≤ d.month) (hb : d.month ≤ 6) : d.quarter = 2 := by
  unfold Date.quarter
  omega

theorem quarter_le_four (d : Date) (h : d.month ≤ 12) : d.quarter ≤ 4 := by
  unfold Date.quarter
  omega

theorem date_le_qKey (a b : Date) (h : Date.le a b) :
    qKeyLe a.year a.quarter b.year b.quarter := by
  unfold Date.le at h
  unfold qKeyLe Date.quarter
  omega

/-! ### Helper lemmas: group-wise forward fill -/

theorem ffillGroup_map_key :
    ∀ (l : List MergedRow) (st : String → Option ℚ),
      (ffillGroup st l).map (fun r => (r.symbol, r.date)) =
        l.map (fun r => (r.symbol, r.date)) := by
  intro l
  induction l with
  | nil => intro st; rfl
  | cons r rs ih =>
    intro st
    unfold ffillGroup
    rw [List.map_cons, List.map_cons, ih]

theorem ffillGroup_mem_split (r2 : MergedRow) :
    ∀ (l : List MergedRow) (st : String → Option ℚ), r2 ∈ ffillGroup st l →
      ∃ l₁ r l₂, l = l₁ ++ r :: l₂ ∧
        r2 = { r with fund := stepState (stateAfter st l₁) r r.symbol } := by
  intro l
  induction l with
  | nil =>
    intro st h
    exact absurd h (List.not_mem_nil r2)
  | cons q qs ih =>
    intro st h
    unfold ffillGroup at h
    rcases List.mem_cons.1 h with h1 | h1
    · exact ⟨[], q, qs, rfl, by rw [h1]; rfl⟩
    · obtain ⟨l₁, r, l₂, heq, hr2⟩ := ih (stepState st q) h1
      refine ⟨q :: l₁, r, l₂, by rw [heq]; rfl, ?_⟩
      rw [hr2]
      rfl

theorem stateAfter_append (st : String → Option ℚ) (l₁ l₂ : List MergedRow) :
    stateAfter st (l₁ ++ l₂) = stateAfter (stateAfter st l₁) l₂ :=
  List.foldl_append stepState st l₁ l₂

theorem stateAfter_some (s : String) (v : ℚ) :
    ∀ (l : List MergedRow) (st : String → Option ℚ), stateAfter st l s = some v →
      st s = some v ∨ ∃ q ∈ l, q.symbol = s ∧ q.fund = some v := by
  intro l
  induction l with
  | nil =>
    intro st h
    exact Or.inl h
  | cons q qs ih =>
    intro st h
    rcases ih (stepState st q) h with h1 | ⟨p, hp, hps, hpf⟩
    · unfold stepState at h1
      by_cases hs : s = q.symbol
      · rw [if_pos hs] at h1
        cases hq : q.fund with
        | some w =>
          rw [hq] at h1
          exact Or.inr ⟨q, List.mem_cons_self q qs, hs.symm, hq.trans h1⟩
        | none =>
          rw [hq] at h1
          refine Or.inl ?_
          rw [hs]
          exact h1
      · rw [if_neg hs] at h1
        exact Or.inl h1
    · exact Or.inr ⟨p, List.mem_cons_of_mem q hp, hps, hpf⟩

theorem stateAfter_stable (s : String) (a : ℚ) :
    ∀ (l : List MergedRow) (st : String → Option ℚ), st s = some a →
      (∀ q ∈ l, q.symbol = s → q.fund = none ∨ q.fund = some a) →
      stateAfter st l s = some a := by
  intro l
  induction l with
  | nil =>
    intro st h _
    exact h
  | cons q qs ih =>
    intro st h hall
    show stateAfter (stepState st q) qs s = some a
    apply ih
    · unfold stepState
      by_cases hs : s = q.symbol
      · rw [if_pos hs]
        rcases hall q (List.mem_cons_self q qs) hs.symm with hq | hq
        · rw [hq, ← hs]
          exact h
        · rw [hq]
      · rw [if_neg hs]
        exact h
    · exact fun p hp hps => hall p (List.mem_cons_of_mem q hp) hps

theorem mergeRow_fund_sourced (funds : List FundRow) (p : PriceRow) (v : ℚ)
    (h : (mergeRow funds p).fund = some v) :
    ∃ f ∈ funds, f.symbol = p.symbol ∧ f.year = p.date.year ∧
      f.quarter = p.date.quarter ∧ f.v = some v := by
  have h2 : (fundLookup funds p.symbol p.date.year p.date.quarter).bind (fun f => f.v) =
      some v := h
  cases hf : fundLookup funds p.symbol p.date.year p.date.quarter with
  | none =>
    rw [hf] at h2
    cases h2
  | some f =>
    rw [hf] at h2
    have hmem := List.mem_of_find?_eq_some hf
    have hpred := List.find?_some hf
    simp only [Bool.and_eq_true, decide_eq_true_eq] at hpred
    exact ⟨f, hmem, hpred.1.1, hpred.1.2, hpred.2, h2⟩

/-- Claim C1: in `get_merged_data`, every non-null fundamental value
carried by an output row comes from a fundamental row of the same symbol
whose `(year, quarter)` key is at most the calendar quarter key of the
row's date — never from a later quarter. -/
theorem get_merged_data_no_lookahead (prices : List PriceRow) (funds : List FundRow) :
    ∀ r2 ∈ get_merged_data prices funds, ∀ v : ℚ, r2.fund = some v →
      ∃ f ∈ funds, f.symbol = r2.symbol ∧ f.v = some v ∧
        qKeyLe f.year f.quarter r2.date.year r2.date.quarter := by
  intro r2 hr2 v hv
  unfold get_merged_data at hr2
  split at hr2
  · obtain ⟨p, hp, hpe⟩ := List.mem_map.1 hr2
    rw [← hpe] at hv
    cases hv
  · set L := List.insertionSort rowLe (prices.map (mergeRow funds)) with hLdef
    obtain ⟨l₁, r, l₂, heq, hr2e⟩ := ffillGroup_mem_split r2 L _ hr2
    have hpw : List.Pairwise rowLe L :=
      @List.sorted_insertionSort MergedRow rowLe _ ⟨rowLe_total⟩ ⟨rowLe_trans⟩ _
    have hperm : L.Perm (prices.map (mergeRow funds)) := List.perm_insertionSort rowLe _
    have hsrc : ∀ q ∈ L, ∀ w : ℚ, q.fund = some w →
        ∃ f ∈ funds, f.symbol = q.symbol ∧ f.v = some w ∧
          f.year = q.date.year ∧ f.quarter = q.date.quarter := by
      intro q hq w hw
      have hq2 : q ∈ prices.map (mergeRow funds) := hperm.mem_iff.1 hq
      obtain ⟨p, hp, hpe⟩ := List.mem_map.1 hq2
      rw [← hpe] at hw
      obtain ⟨f, hf, ha, hb, hc, hd⟩ := mergeRow_fund_sourced funds p w hw
      rw [← hpe]
      exact ⟨f, hf, ha, hd, hb, hc⟩
    rw [hr2e] at hv ⊢
    have hv2 : stepState (stateAfter (fun _ => none) l₁) r r.symbol = some v := hv
    unfold stepState at hv2
    rw [if_pos rfl] at hv2
    have hrL : r ∈ L := by
      rw [heq]
      exact List.mem_append_right _ (List.mem_cons_self r l₂)
    cases hq : r.fund with
    | some w =>
      rw [hq] at hv2
      obtain ⟨f, hf, ha, hb, hc, hd⟩ := hsrc r hrL w hq
      refine ⟨f, hf, ha, ?_, ?_⟩
      · rw [hb]
        exact hv2
      · rw [hc, hd]
        exact Or.inr ⟨rfl, le_refl _⟩
    | none =>
      rw [hq] at hv2
      rcases stateAfter_some r.symbol v l₁ _ hv2 with h0 | ⟨q, hql1, hqs, hqf⟩
      · cases h0
      · obtain ⟨f, hf, ha, hb, hc, hd⟩ :=
          hsrc q (by rw [heq]; exact List.mem_append_left _ hql1) v hqf
        have hle : rowLe q r := by
          have hsp := (List.pairwise_append.1 (heq ▸ hpw)).2.2
          exact hsp q hql1 r (List.mem_cons_self r l₂)
        have hdle : Date.le q.date r.date := rowLe_same_symbol_date q r hle hqs
        refine ⟨f, hf, ?_, hb, ?_⟩
        · rw [ha, hqs]
        · rw [hc, hd]
          exact date_le_qKey q.date r.date hdle

/-- Claim C1, witness: on a concrete panel the Q2 output row's value is
sourced from a concrete fundamental with key at most its quarter. -/
theorem get_merged_data_no_lookahead_witness :
    ∃ f ∈ fsC2, f.symbol = ((get_merged_data psC2 fsC2).getD 1 mr0).symbol ∧
      f.v = some 5 ∧
      qKeyLe f.year f.quarter ((get_merged_data psC2 fsC2).getD 1 mr0).date.year
        ((get_merged_data psC2 fsC2).getD 1 mr0).date.quarter :=
  get_merged_data_no_lookahead psC2 fsC2 ((get_merged_data psC2 fsC2).getD 1 mr0)
    (by decide) 5 (by decide)

/-- Claim C3 (amended): with a nonempty fundamentals table the output of
`get_merged_data` is sorted by `(symbol, date)` ascending — the order of
`merged.sort_values(['symbol', 'date'])`, which is never undone — and its
row keys are a permutation of the panel's; the panel's `(date, symbol)`
ordering is not what the output carries. -/
theorem get_merged_data_row_order (prices : List PriceRow) (funds : List FundRow)
    (hf : funds ≠ []) :
    List.Pairwise rowLe (get_merged_data prices funds) ∧
      ((get_merged_data prices funds).map (fun r => (r.symbol, r.date))).Perm
        (prices.map (fun p => (p.symbol, p.date))) := by
  unfold get_merged_data
  rw [if_neg (by simpa using hf)]
  constructor
  · have hpw : List.Pairwise rowLe (List.insertionSort rowLe (prices.map (mergeRow funds))) :=
      @List.sorted_insertionSort MergedRow rowLe _ ⟨rowLe_total⟩ ⟨rowLe_trans⟩ _
    have h1 : List.Pairwise keyLe
        ((List.insertionSort rowLe (prices.map (mergeRow funds))).map
          (fun r => (r.symbol, r.date))) := by
      rw [List.pairwise_map]
      exact hpw
    rw [← ffillGroup_map_key (List.insertionSort rowLe (prices.map (mergeRow funds)))
      (fun _ => none)] at h1
    rw [List.pairwise_map] at h1
    exact h1
  · rw [ffillGroup_map_key]
    have hperm := List.perm_insertionSort rowLe (prices.map (mergeRow funds))
    have h3 := hperm.map (fun r : MergedRow => (r.symbol, r.date))
    rw [List.map_map] at h3
    exact h3

/-- Claim C3, witness: on a concrete two-symbol two-date panel the output
is `(symbol, date)` sorted and a permutation of the panel keys. -/
theorem get_merged_data_row_order_witness :
    List.Pairwise rowLe (get_merged_data psC3 fsC3) ∧
      ((get_merged_data psC3 fsC3).map (fun r => (r.symbol, r.date))).Perm
        (psC3.map (fun p => (p.symbol, p.date))) :=
  get_merged_data_row_order psC3 fsC3 (by decide)

/-- Claim C3, counterexample: for the two-symbol two-date panel `psC3`
(which is in `(date, symbol)` order) with a nonempty fundamentals table,
the output row ordering differs from the panel's `(date, symbol)`
ordering — the code re-sorts by `(symbol, date)` and never restores the
panel order. -/
theorem get_merged_data_row_order_cex :
    ((get_merged_data psC3 fsC3).map (fun r => (r.symbol, r.date))) ≠
      (psC3.map (fun p => (p.symbol, p.date))) := by decide

theorem find?_filter_of_imp {α : Type} (pred keep : α → Bool)
    (h : ∀ x, pred x = true → keep x = true) :
    ∀ l : List α, (l.filter keep).find? pred = l.find? pred := by
  intro l
  induction l with
  | nil => rfl
  | cons a t ih =>
    by_cases hp : pred a = true
    · rw [List.filter_cons_of_pos (h a hp), List.find?_cons_of_pos _ hp,
        List.find?_cons_of_pos _ hp]
    · by_cases hk : keep a = true
      · rw [List.filter_cons_of_pos hk, List.find?_cons_of_neg _ (by simp [hp]),
          List.find?_cons_of_neg _ (by simp [hp]), ih]
      · rw [List.filter_cons_of_neg (by simp [hk]), ih,
          List.find?_cons_of_neg _ (by simp [hp])]

/-- Claim C10 (amended): provided every price date has a real month (so its
quarter is at most 4) and at least one non-annual fundamental row exists,
`get_merged_data` gives identical output with and without the annual
(quarter = 5) rollup rows: they never match the join and never feed the
forward fill.  (Without the proviso the outputs differ: if only quarter-5
rows exist, dropping them takes the empty-fundamentals early return, which
changes the output's shape and ordering — see the counterexample.) -/
theorem get_merged_data_ignores_annual (prices : List PriceRow) (funds : List FundRow)
    (hm : ∀ p ∈ prices, p.date.month ≤ 12)
    (hne : funds.filter (fun f => decide (f.quarter ≠ 5)) ≠ []) :
    get_merged_data prices funds =
      get_merged_data prices (funds.filter (fun f => decide (f.quarter ≠ 5))) := by
  have hfene : funds ≠ [] := by
    intro h
    rw [h] at hne
    exact hne rfl
  unfold get_merged_data
  rw [if_neg (by simpa using hfene), if_neg (by simpa using hne)]
  have hmap : prices.map (mergeRow funds) =
      prices.map (mergeRow (funds.filter (fun f => decide (f.quarter ≠ 5)))) := by
    apply List.map_congr_left
    intro p hp
    have hlk : fundLookup (funds.filter (fun f => decide (f.quarter ≠ 5)))
        p.symbol p.date.year p.date.quarter =
        fundLookup funds p.symbol p.date.year p.date.quarter := by
      unfold fundLookup
      apply find?_filter_of_imp
      intro f hf
      simp only [Bool.and_eq_true, decide_eq_true_eq] at hf
      obtain ⟨⟨hfs, hfy⟩, hfq⟩ := hf
      have hq := quarter_le_four p.date (hm p hp)
      simp only [decide_eq_true_eq]
      omega
    unfold mergeRow
    rw [hlk]
  rw [hmap]

/-- Claim C10, witness: with a non-annual fundamental row present, the
annual-row filter does not change the merged output. -/
theorem get_merged_data_ignores_annual_witness :
    get_merged_data psC3 fsC3 =
      get_merged_data psC3 (fsC3.filter (fun f => decide (f.quarter ≠ 5))) :=
  get_merged_data_ignores_annual psC3 fsC3 (by decide) (by decide)

/-- Claim C10, counterexample: a store whose only fundamental row is an
annual (quarter = 5) rollup produces a different `get_merged_data` output
than the same store without it: removing the row makes the fundamentals
frame empty, and the code's empty-fundamentals early return keeps the
panel's `(date, symbol)` order instead of re-sorting — the outputs are not
identical, so annual rollups are not invisible in every store state. -/
theorem get_merged_data_ignores_annual_cex :
    get_merged_data psC10 fsC10 ≠
      get_merged_data psC10 (fsC10.filter (fun f => decide (f.quarter ≠ 5))) := by decide

/-- Claim C2: if a symbol has a fundamental row for Q1 of a year (with a
non-null value found by the join) and one for Q3 but none for Q2, and the
panel contains at least one Q1 price row of that symbol in that year, then
every output row of that symbol whose date falls in Q2 of that year
carries Q1's value — the forward fill propagates the most recent prior
non-null value per symbol in date order across the gap. -/
theorem get_merged_data_forward_fill (prices : List PriceRow) (funds : List FundRow)
    (s : String) (y : ℕ) (a : ℚ) (f1 : FundRow)
    (h1 : fundLookup funds s y 1 = some f1) (h1v : f1.v = some a)
    (h2 : ∀ f ∈ funds, ¬(f.symbol = s ∧ f.year = y ∧ f.quarter = 2))
    (h3 : ∃ f ∈ funds, f.symbol = s ∧ f.year = y ∧ f.quarter = 3)
    (hp1 : ∃ p ∈ prices, p.symbol = s ∧ p.date.year = y ∧
      1 ≤ p.date.month ∧ p.date.month ≤ 3) :
    ∀ r2 ∈ get_merged_data prices funds, r2.symbol = s → r2.date.year = y →
      4 ≤ r2.date.month → r2.date.month ≤ 6 → r2.fund = some a := by
  intro r2 hr2 hs2 hy2 hm4 hm6
  have hfne : funds ≠ [] := by
    intro h
    rw [h] at h1
    cases h1
  unfold get_merged_data at hr2
  rw [if_neg (by simpa using hfne)] at hr2
  set L := List.insertionSort rowLe (prices.map (mergeRow funds)) with hLdef
  have hpw : List.Pairwise rowLe L :=
    @List.sorted_insertionSort MergedRow rowLe _ ⟨rowLe_total⟩ ⟨rowLe_trans⟩ _
  have hperm : L.Perm (prices.map (mergeRow funds)) := List.perm_insertionSort rowLe _
  obtain ⟨l₁, r, l₂, heq, hr2e⟩ := ffillGroup_mem_split r2 L _ hr2
  have hrs : r.symbol = s := by rw [hr2e] at hs2; exact hs2
  have hry : r.date.year = y := by rw [hr2e] at hy2; exact hy2
  have hrm4 : 4 ≤ r.date.month := by rw [hr2e] at hm4; exact hm4
  have hrm6 : r.date.month ≤ 6 := by rw [hr2e] at hm6; exact hm6
  have hnone2 : fundLookup funds s y 2 = none := by
    apply List.find?_eq_none.2
    intro f hf
    simp only [Bool.and_eq_true, decide_eq_true_eq, not_and]
    intro hfsy hfq
    exact h2 f hf ⟨hfsy.1, hfsy.2, hfq⟩
  have hqfund : ∀ q ∈ L, q.symbol = s → q.date.year = y →
      1 ≤ q.date.month → q.date.month ≤ 6 →
      (q.date.month ≤ 3 → q.fund = some a) ∧ (4 ≤ q.date.month → q.fund = none) := by
    intro q hq hqs hqy hq1 hq6
    have hq2 : q ∈ prices.map (mergeRow funds) := hperm.mem_iff.1 hq
    obtain ⟨p, hp, hpe⟩ := List.mem_map.1 hq2
    have hfund : q.fund =
        (fundLookup funds q.symbol q.date.year q.date.quarter).bind (fun f => f.v) := by
      rw [← hpe]
      rfl
    constructor
    · intro hq3
      have hquart : q.date.quarter = 1 := quarter_eq_one q.date hq1 hq3
      rw [hfund, hqs, hqy, hquart, h1]
      exact h1v
    · intro hq4
      have hquart : q.date.quarter = 2 := quarter_eq_two q.date hq4 hq6
      rw [hfund, hqs, hqy, hquart, hnone2]
      rfl
  obtain ⟨p1, hp1m, hp1s, hp1y, hp1a, hp1b⟩ := hp1
  have hq1L : mergeRow funds p1 ∈ L := hperm.mem_iff.2 (List.mem_map_of_mem _ hp1m)
  have hq1s : (mergeRow funds p1).symbol = s := hp1s
  have hq1y : (mergeRow funds p1).date.year = y := hp1y
  have hq1m1 : 1 ≤ (mergeRow funds p1).date.month := hp1a
  have hq1m3 : (mergeRow funds p1).date.month ≤ 3 := hp1b
  have hq1fund : (mergeRow funds p1).fund = some a :=
    (hqfund _ hq1L hq1s hq1y hq1m1 (by omega)).1 hq1m3
  have hpwsplit := List.pairwise_append.1 (heq ▸ hpw)
  have hq1ne : mergeRow funds p1 ≠ r := by
    intro h
    rw [h] at hq1m3
    omega
  have hq1l₁ : mergeRow funds p1 ∈ l₁ := by
    have hmem : mergeRow funds p1 ∈ l₁ ++ r :: l₂ := heq ▸ hq1L
    rcases List.mem_append.1 hmem with h | h
    · exact h
    · rcases List.mem_cons.1 h with h | h
      · exact absurd h hq1ne
      · exfalso
        have hle : rowLe r (mergeRow funds p1) :=
          (List.pairwise_cons.1 hpwsplit.2.1).1 _ h
        have hdle := rowLe_same_symbol_date r (mergeRow funds p1) hle (by rw [hrs, hq1s])
        unfold Date.le at hdle
        omega
  obtain ⟨m₁, m₂, hl₁⟩ := List.append_of_mem hq1l₁
  have hrL : r ∈ L := by
    rw [heq]
    exact List.mem_append_right _ (List.mem_cons_self r l₂)
  have hrfund : r.fund = none := (hqfund r hrL hrs hry (by omega) hrm6).2 hrm4
  rw [hr2e]
  show stepState (stateAfter (fun _ => none) l₁) r r.symbol = some a
  unfold stepState
  rw [if_pos rfl, hrfund]
  show stateAfter (fun _ => none) l₁ r.symbol = some a
  rw [hrs, hl₁, stateAfter_append]
  show stateAfter (stepState (stateAfter (fun _ => none) m₁) (mergeRow funds p1)) m₂ s = some a
  apply stateAfter_stable
  · unfold stepState
    rw [if_pos hq1s.symm, hq1fund]
  · intro q hqm2 hqs
    have hql₁ : q ∈ l₁ := by
      rw [hl₁]
      exact List.mem_append_right _ (List.mem_cons_of_mem _ hqm2)
    have hqL : q ∈ L := by
      rw [heq]
      exact List.mem_append_left _ hql₁
    have hpwl₁ : List.Pairwise rowLe l₁ := hpwsplit.1
    have hle1 : rowLe (mergeRow funds p1) q := by
      rw [hl₁] at hpwl₁
      exact (List.pairwise_cons.1 (List.pairwise_append.1 hpwl₁).2.1).1 q hqm2
    have hle2 : rowLe q r := hpwsplit.2.2 q hql₁ r (List.mem_cons_self r l₂)
    have hd1 := rowLe_same_symbol_date (mergeRow funds p1) q hle1 (by rw [hq1s, hqs])
    have hd2 := rowLe_same_symbol_date q r hle2 (by rw [hqs, hrs])
    have hqy : q.date.year = y := by
      unfold Date.le at hd1 hd2
      omega
    have hqm16 : 1 ≤ q.date.month ∧ q.date.month ≤ 6 := by
      unfold Date.le at hd1 hd2
      omega
    by_cases hq3 : q.date.month ≤ 3
    · exact Or.inr ((hqfund q hqL hqs hqy hqm16.1 hqm16.2).1 hq3)
    · exact Or.inl ((hqfund q hqL hqs hqy hqm16.1 hqm16.2).2 (by omega))

/-- Claim C2, witness: one symbol with a Q1 fundamental of value 5, a Q3
fundamental, no Q2 row; the Q2 price row receives the Q1 value 5. -/
theorem get_merged_data_forward_fill_witness :
    ((get_merged_data psC2 fsC2).getD 1 mr0).fund = some 5 :=
  get_merged_data_forward_fill psC2 fsC2 "A" 2024 5 ⟨"A", 2024, 1, some 5⟩
    (by decide) (by decide) (by decide) (by decide) (by decide)
    ((get_merged_data psC2 fsC2).getD 1 mr0) (by decide) (by decide) (by decide)
    (by decide) (by decide)

/-! ### Helper lemmas: cross-sectional average ranks -/

theorem cntEq_eq_one_of_nodup (x : ℚ) :
    ∀ g : List ℚ, g.Nodup → x ∈ g → cntEq g x = 1 := by
  intro g
  induction g with
  | nil =>
    intro _ h
    exact absurd h (List.not_mem_nil x)
  | cons b t ih =>
    intro hnd hx
    have e : cntEq (b :: t) x = cntEq t x + if decide (b = x) = true then 1 else 0 :=
      List.countP_cons _ _ _
    rcases List.mem_cons.1 hx with rfl | hxt
    · have hxnot : x ∉ t := (List.nodup_cons.1 hnd).1
      have h0 : cntEq t x = 0 := by
        apply List.countP_eq_zero.2
        intro y hy
        simp only [decide_eq_true_eq]
        intro he
        exact hxnot (he ▸ hy)
      rw [e, h0, if_pos (by simp)]
    · have hbx : ¬(b = x) := by
        intro he
        exact (List.nodup_cons.1 hnd).1 (he ▸ hxt)
      rw [e, ih (List.nodup_cons.1 hnd).2 hxt, if_neg (by simpa using hbx)]

theorem cntLt_add_cntEq_le (x : ℚ) : ∀ g : List ℚ, cntLt g x + cntEq g x ≤ g.length := by
  intro g
  induction g with
  | nil => simp [cntLt, cntEq]
  | cons b t ih =>
    have e1 : cntLt (b :: t) x = cntLt t x + if decide (b < x) = true then 1 else 0 :=
      List.countP_cons _ _ _
    have e2 : cntEq (b :: t) x = cntEq t x + if decide (b = x) = true then 1 else 0 :=
      List.countP_cons _ _ _
    rw [e1, e2, List.length_cons]
    by_cases hlt : b < x
    · have hne : ¬(b = x) := fun h => lt_irrefl x (h ▸ hlt)
      rw [if_pos (by simpa using hlt), if_neg (by simpa using hne)]
      omega
    · by_cases heq : b = x
      · rw [if_neg (by simpa using hlt), if_pos (by simpa using heq)]
        omega
      · rw [if_neg (by simpa using hlt), if_neg (by simpa using heq)]
        omega

theorem pctRank_bounds (g : List ℚ) (x : ℚ) (hx : x ∈ g) :
    0 < pctRank g x ∧ pctRank g x ≤ 1 := by
  have hc1 : 1 ≤ cntEq g x := by
    have hpos : 0 < cntEq g x := List.countP_pos_iff.2 ⟨x, hx, by simp⟩
    omega
  have hle := cntLt_add_cntEq_le x g
  have hlen : 0 < g.length := List.length_pos.2 (List.ne_nil_of_mem hx)
  have hlenq : (0:ℚ) < (g.length : ℚ) := by exact_mod_cast hlen
  have hcq : (1:ℚ) ≤ (cntEq g x : ℚ) := by exact_mod_cast hc1
  have hleq : (cntLt g x : ℚ) + (cntEq g x : ℚ) ≤ (g.length : ℚ) := by exact_mod_cast hle
  have h0 : (0:ℚ) ≤ (cntLt g x : ℚ) := Nat.cast_nonneg _
  unfold pctRank avgRank
  constructor
  · apply div_pos
    · have h1 : (1:ℚ) ≤ ((cntEq g x : ℚ) + 1) / 2 := by
        rw [le_div_iff (by norm_num)]
        linarith
      linarith
    · exact hlenq
  · rw [div_le_one hlenq]
    have h2 : ((cntEq g x : ℚ) + 1) / 2 ≤ (cntEq g x : ℚ) := by
      rw [div_le_iff (by norm_num)]
      linarith
    linarith

theorem map_cntLt_sorted : ∀ gs : List ℚ, List.Pairwise (· < ·) gs →
    gs.map (fun x => cntLt gs x) = List.range gs.length := by
  intro gs
  induction gs with
  | nil => intro _; rfl
  | cons b t ih =>
    intro hpw
    obtain ⟨hb, ht⟩ := List.pairwise_cons.1 hpw
    rw [List.map_cons]
    have hz : cntLt t b = 0 := by
      apply List.countP_eq_zero.2
      intro y hy
      simp only [decide_eq_true_eq]
      intro hlt
      exact absurd hlt (not_lt.2 (le_of_lt (hb y hy)))
    have h0 : cntLt (b :: t) b = 0 := by
      have e : cntLt (b :: t) b = cntLt t b + if decide (b < b) = true then 1 else 0 :=
        List.countP_cons _ _ _
      rw [e, hz, if_neg (by simpa using lt_irrefl b)]
    have hstep : ∀ y ∈ t, cntLt (b :: t) y = cntLt t y + 1 := by
      intro y hy
      have e : cntLt (b :: t) y = cntLt t y + if decide (b < y) = true then 1 else 0 :=
        List.countP_cons _ _ _
      rw [e, if_pos (by simpa using hb y hy)]
    have hmap : t.map (fun x => cntLt (b :: t) x) = t.map (fun x => cntLt t x + 1) :=
      List.map_congr_left hstep
    have hcomp : t.map (fun x => cntLt t x + 1) =
        (t.map (fun x => cntLt t x)).map (fun k => k + 1) := by
      rw [List.map_map]
      rfl
    rw [h0, hmap, hcomp, ih ht, List.length_cons, List.range_succ_eq_map]

theorem map_cntLt_perm (g : List ℚ) (hnd : g.Nodup) :
    (g.map (fun x => cntLt g x)).Perm (List.range g.length) := by
  have hperm : (List.insertionSort (· ≤ ·) g).Perm g := List.perm_insertionSort _ g
  have hsorted : List.Pairwise (· ≤ ·) (List.insertionSort (· ≤ ·) g) :=
    List.sorted_insertionSort _ g
  have hndgs : (List.insertionSort (· ≤ ·) g).Nodup := (hperm.nodup_iff).2 hnd
  have hlt : List.Pairwise (· < ·) (List.insertionSort (· ≤ ·) g) :=
    (hsorted.and hndgs).imp (fun hab => lt_of_le_of_ne hab.1 hab.2)
  have h1 : g.map (fun x => cntLt g x) =
      g.map (fun x => cntLt (List.insertionSort (· ≤ ·) g) x) := by
    apply List.map_congr_left
    intro x _
    unfold cntLt
    exact (hperm.countP_eq _).symm
  have h2 : (g.map (fun x => cntLt (List.insertionSort (· ≤ ·) g) x)).Perm
      ((List.insertionSort (· ≤ ·) g).map
        (fun x => cntLt (List.insertionSort (· ≤ ·) g) x)) :=
    (hperm.map _).symm
  rw [h1, ← hperm.length_eq, ← map_cntLt_sorted _ hlt]
  exact h2

theorem filterMap_rank_group (G : Date → List ℚ) (d : Date) :
    ∀ l : List RRow, (∀ r ∈ l, r.date = d) →
      l.filterMap (fun r => r.v.map (fun x => pctRank (G r.date) x)) =
        (l.filterMap (fun r => r.v)).map (fun x => pctRank (G d) x) := by
  intro l
  induction l with
  | nil => intro _; rfl
  | cons r t ih =>
    intro hall
    have hd : r.date = d := hall r (List.mem_cons_self r t)
    have ih2 := ih (fun q hq => hall q (List.mem_cons_of_mem r hq))
    cases hv : r.v with
    | none =>
      simp only [List.filterMap_cons, hv, Option.map_none', ih2]
    | some x =>
      simp only [List.filterMap_cons, hv, Option.map_some', ih2, List.map_cons, hd]

theorem ranked_filter_eq (rows : List RRow) (d : Date) :
    ((rank_cross_sectional rows).filter (fun r => decide (r.date = d))).filterMap
        (fun r => r.rank) =
      (groupVals rows d).map (fun x => pctRank (groupVals rows d) x) := by
  unfold rank_cross_sectional
  rw [List.filter_map, List.filterMap_map]
  have hpred : ((fun r : RankedRow => decide (r.date = d)) ∘
      (fun r : RRow => RankedRow.mk r.date r.symbol r.v
        (r.v.map (fun x => pctRank (groupVals rows r.date) x)))) =
      (fun r : RRow => decide (r.date = d)) := rfl
  rw [hpred]
  have hfeq : ((fun r : RankedRow => r.rank) ∘
      (fun r : RRow => RankedRow.mk r.date r.symbol r.v
        (r.v.map (fun x => pctRank (groupVals rows r.date) x)))) =
      (fun r : RRow => r.v.map (fun x => pctRank (groupVals rows r.date) x)) := rfl
  rw [hfeq]
  have hall : ∀ r ∈ rows.filter (fun r : RRow => decide (r.date = d)), r.date = d := by
    intro r hr
    have hp := List.of_mem_filter hr
    simpa using hp
  rw [filterMap_rank_group (groupVals rows) d _ hall]
  rfl

theorem sum_range'_cast (c : ℕ) : ∀ k : ℕ,
    ((List.map (fun i : ℕ => (i : ℚ)) (List.range' (k + 1) c)).sum) =
      (c : ℚ) * k + (c : ℚ) * ((c : ℚ) + 1) / 2 := by
  induction c with
  | zero =>
    intro k
    simp
  | succ n ih =>
    intro k
    rw [List.range'_succ, List.map_cons, List.sum_cons, ih (k + 1)]
    push_cast
    ring

/-- Claim C8: `rank_cross_sectional` produces percentile ranks in `(0, 1]`;
within a date group whose non-null values are all distinct the rank
multiset equals `{1/N, ..., N/N}`; a group of size one ranks its member at
1; ties receive the mean of the ranks they would occupy (divided by the
group size); null inputs stay null; and the original columns are retained
unchanged. -/
theorem rank_cross_sectional_spec (rows : List RRow) :
    (∀ r2 ∈ rank_cross_sectional rows, ∀ p : ℚ, r2.rank = some p → 0 < p ∧ p ≤ 1) ∧
    (∀ d : Date, (groupVals rows d).Nodup →
      (((rank_cross_sectional rows).filter (fun r => decide (r.date = d))).filterMap
          (fun r => r.rank)).Perm
        ((List.range (groupVals rows d).length).map
          (fun i : ℕ => ((i : ℚ) + 1) / ((groupVals rows d).length : ℚ)))) ∧
    (∀ r2 ∈ rank_cross_sectional rows, ∀ x : ℚ, r2.v = some x →
      groupVals rows r2.date = [x] → r2.rank = some 1) ∧
    (∀ r2 ∈ rank_cross_sectional rows, ∀ x : ℚ, r2.v = some x →
      r2.rank = some (((List.map (fun i : ℕ => (i : ℚ))
          (List.range' (cntLt (groupVals rows r2.date) x + 1)
            (cntEq (groupVals rows r2.date) x))).sum /
        (cntEq (groupVals rows r2.date) x : ℚ)) / ((groupVals rows r2.date).length : ℚ))) ∧
    (∀ r2 ∈ rank_cross_sectional rows, r2.v = none → r2.rank = none) ∧
    ((rank_cross_sectional rows).map (fun r => (⟨r.date, r.symbol, r.v⟩ : RRow)) = rows) := by
  have hmem : ∀ r2 ∈ rank_cross_sectional rows, ∃ r ∈ rows,
      r2.date = r.date ∧ r2.v = r.v ∧
      r2.rank = r.v.map (fun x => pctRank (groupVals rows r.date) x) := by
    intro r2 hr2
    obtain ⟨r, hr, hre⟩ := List.mem_map.1 hr2
    exact ⟨r, hr, by rw [← hre], by rw [← hre], by rw [← hre]⟩
  have hxg : ∀ r ∈ rows, ∀ x : ℚ, r.v = some x → x ∈ groupVals rows r.date := by
    intro r hr x hv
    unfold groupVals
    exact List.mem_filterMap.2 ⟨r, List.mem_filter.2 ⟨hr, by simp⟩, hv⟩
  refine ⟨?_, ?_, ?_, ?_, ?_, ?_⟩
  · intro r2 hr2 p hp
    obtain ⟨r, hr, hd, hv, hrk⟩ := hmem r2 hr2
    rw [hrk] at hp
    cases hrv : r.v with
    | none =>
      rw [hrv] at hp
      cases hp
    | some x =>
      rw [hrv] at hp
      rw [Option.map_some'] at hp
      have hpe : pctRank (groupVals rows r.date) x = p := Option.some.inj hp
      rw [← hpe]
      exact pctRank_bounds _ x (hxg r hr x hrv)
  · intro d hnd
    rw [ranked_filter_eq rows d]
    have hmapc : (groupVals rows d).map (fun x => pctRank (groupVals rows d) x) =
        (groupVals rows d).map (fun x => ((cntLt (groupVals rows d) x : ℚ) + 1) /
          ((groupVals rows d).length : ℚ)) := by
      apply List.map_congr_left
      intro x hx
      unfold pctRank avgRank
      rw [cntEq_eq_one_of_nodup x _ hnd hx]
      norm_num
    have hcomp : (groupVals rows d).map (fun x => ((cntLt (groupVals rows d) x : ℚ) + 1) /
        ((groupVals rows d).length : ℚ)) =
        ((groupVals rows d).map (fun x => cntLt (groupVals rows d) x)).map
          (fun k : ℕ => ((k : ℚ) + 1) / ((groupVals rows d).length : ℚ)) := by
      rw [List.map_map]
      rfl
    rw [hmapc, hcomp]
    exact (map_cntLt_perm _ hnd).map _
  · intro r2 hr2 x hv hg
    obtain ⟨r, hr, hd, hveq, hrk⟩ := hmem r2 hr2
    have hrv : r.v = some x := by rw [← hveq]; exact hv
    rw [hrk, hrv, Option.map_some']
    rw [hd] at hg
    rw [hg]
    have hone : pctRank [x] x = 1 := by
      unfold pctRank avgRank cntLt cntEq
      simp [List.countP_cons, lt_irrefl]
    rw [hone]
  · intro r2 hr2 x hv
    obtain ⟨r, hr, hd, hveq, hrk⟩ := hmem r2 hr2
    have hrv : r.v = some x := by rw [← hveq]; exact hv
    have hc1 : 1 ≤ cntEq (groupVals rows r.date) x := by
      have hpos : 0 < cntEq (groupVals rows r.date) x :=
        List.countP_pos_iff.2 ⟨x, hxg r hr x hrv, by simp⟩
      omega
    have hc0 : ((cntEq (groupVals rows r.date) x : ℚ)) ≠ 0 := by
      have : (0:ℚ) < (cntEq (groupVals rows r.date) x : ℚ) := by exact_mod_cast hc1
      exact ne_of_gt this
    rw [hrk, hrv, Option.map_some', hd]
    congr 1
    rw [sum_range'_cast]
    unfold pctRank avgRank
    congr 1
    field_simp
    ring
  · intro r2 hr2 hv
    obtain ⟨r, hr, hd, hveq, hrk⟩ := hmem r2 hr2
    have hrv : r.v = none := by rw [← hveq]; exact hv
    rw [hrk, hrv]
    rfl
  · unfold rank_cross_sectional
    rw [List.map_map]
    have hid : ((fun r : RankedRow => (⟨r.date, r.symbol, r.v⟩ : RRow)) ∘
        (fun r : RRow => RankedRow.mk r.date r.symbol r.v
          (r.v.map (fun x => pctRank (groupVals rows r.date) x)))) = id := by
      funext r
      rfl
    rw [hid, List.map_id]

/-- Claim C8, witness: on a concrete one-date frame with two distinct
non-null values and one null, the non-null ranks are a permutation of
`{1/2, 2/2}`. -/
theorem rank_cross_sectional_spec_witness :
    (((rank_cross_sectional rowsC8).filter
        (fun r => decide (r.date = (⟨2024, 1, 2⟩ : Date)))).filterMap (fun r => r.rank)).Perm
      ((List.range (groupVals rowsC8 ⟨2024, 1, 2⟩).length).map
        (fun i : ℕ => ((i : ℚ) + 1) / ((groupVals rowsC8 ⟨2024, 1, 2⟩).length : ℚ))) :=
  (rank_cross_sectional_spec rowsC8).2.1 ⟨2024, 1, 2⟩ (by decide)
